import Mathlib

/-
Shallow embedding of the configistate repository (src/configistate/config.py).

The configuration document is a tree of nested string-keyed mappings with
scalar leaves (strings, integers, booleans) and arrays; Python dicts are
modelled as ordered association lists (insertion preserves order, setting an
existing key keeps its position, which matches CPython dict semantics).
File-system state is explicit: a table from absolute paths to file contents,
plus the current working directory and the home directory used by
Path.expanduser.  A file either holds raw text or a TOML document; TOML
serialisation is modelled as faithful storage of the document tree
(the spec declares the format round-trips deterministically), so a document
file stores the tree itself and a text file stores its string.  Floating
point scalars are left out of the value model.  Python str.strip is modelled
over ASCII whitespace.  Warnings printed by the code are modelled as values
on an explicit diagnostics channel.

The load-time walk of _process_file_variables computes three outputs at once
(the resolved tree, the reverse file mapping, the warnings); in the source
the value transformation reads neither the mapping nor the warning state, so
the walk is modelled as three structurally identical recursions producing
each output.
-/

/-! ### Python string primitives used by the source -/

def isPySpace (c : Char) : Bool :=
  c = ' ' || c = '\t' || c = '\n' || c = '\r' || c = '\x0b' || c = '\x0c'

/-- Model of Python str.strip() over a character list. -/
def pyStripL (l : List Char) : List Char :=
  ((l.dropWhile isPySpace).reverse.dropWhile isPySpace).reverse

/-- Model of Python str.strip(). -/
def pyStrip (s : String) : String := String.mk (pyStripL s.data)

/-- Split a character list on a separator character; mirrors Python
str.split(sep) for a one-character separator (never returns an empty list,
"".split(sep) gives [""]). -/
def splitCharL (sep : Char) : List Char → List (List Char)
  | [] => [[]]
  | c :: cs =>
    if c = sep then [] :: splitCharL sep cs
    else
      match splitCharL sep cs with
      | [] => [[c]]
      | p :: ps => (c :: p) :: ps

/-- Model of Python key.split(".") used by Config.get / Config.set. -/
def pySplitDot (s : String) : List String :=
  (splitCharL ('.') s.data).map String.mk

/-- Model of Python ".".join(parts) used to build reverse-mapping keys. -/
def pyJoinDot : List String → String
  | [] => ""
  | [k] => k
  | k :: k2 :: ks => k ++ "." ++ pyJoinDot (k2 :: ks)

/-- Join path segments with "/" (used to render a pathlib.Path). -/
def joinSlash : List String → String
  | [] => ""
  | [k] => k
  | k :: k2 :: ks => k ++ "/" ++ joinSlash (k2 :: ks)

/-! ### POSIX paths as used through pathlib in the source -/

/-- A pathlib.PurePosixPath: an anchor flag plus normalised segments
(pathlib drops empty segments and "." segments when parsing). -/
structure FsPath where
  absolute : Bool
  segs : List String
deriving DecidableEq, Repr

def markerPre : String := "file://"

/-- Path.parent: drop the last segment (the parent of "/" is "/" and the
parent of "." is ".", as in pathlib). -/
def FsPath.parent (p : FsPath) : FsPath := ⟨p.absolute, p.segs.dropLast⟩

/-- The / operator on paths: joining with an absolute right operand yields
the right operand, as in pathlib. -/
def FsPath.join (base q : FsPath) : FsPath :=
  if q.absolute then q else ⟨base.absolute, base.segs ++ q.segs⟩

/-- Parse a string into a path the way pathlib.Path(s) does: a leading "/"
makes it absolute; empty and "." segments are dropped. -/
def parsePath (s : String) : FsPath :=
  let parts := ((splitCharL ('/') s.data).map String.mk).filter
    (fun t => t != "" && t != ".")
  let abs : Bool := match s.data with
    | '/' :: _ => true
    | _ => false
  ⟨abs, parts⟩

/-- Render a path as str(Path) does: "/"-joined segments, "." for an empty
relative path. -/
def FsPath.render (p : FsPath) : String :=
  if p.absolute then "/" ++ joinSlash p.segs
  else if p.segs = [] then "." else joinSlash p.segs

/-- Path.expanduser(): replace a leading literal "~" segment of a relative
path by the home directory (an absolute path).  Other "~user" forms are left
untouched in this model. -/
def FsPath.expanduser (home : List String) (p : FsPath) : FsPath :=
  match p.absolute, p.segs with
  | false, s0 :: rest => if s0 = "~" then ⟨true, home ++ rest⟩ else p
  | _, _ => p

/-- Boolean segment-list prefix test. -/
def isPreL : List String → List String → Bool
  | [], _ => true
  | _ :: _, [] => false
  | x :: xs, y :: ys => x = y && isPreL xs ys

/-- Path.relative_to(base): defined when both share the anchor and base's
segments are a prefix; the result is the remaining relative path.  A
pathlib ValueError is modelled as none. -/
def FsPath.relativeTo (t base : FsPath) : Option FsPath :=
  if t.absolute = base.absolute && isPreL base.segs t.segs then
    some ⟨false, t.segs.drop base.segs.length⟩
  else none

/-! ### The document value model -/

/-- A TOML value: scalars, arrays and nested tables.  Tables are ordered
association lists mirroring Python dicts. -/
inductive Value where
  | vStr (s : String)
  | vInt (n : Int)
  | vBool (b : Bool)
  | vArr (elems : List Value)
  | vDict (entries : List (String × Value))

abbrev Doc := List (String × Value)

def Value.isDict : Value → Bool
  | .vDict _ => true
  | _ => false

/-! ### Association-list operations with Python dict semantics -/

/-- Dict lookup (first match; Python dicts have unique keys). -/
def lookupG {κ α : Type} [DecidableEq κ] : List (κ × α) → κ → Option α
  | [], _ => none
  | (k, v) :: rest, key => if k = key then some v else lookupG rest key

/-- Dict assignment d[k] = v: replace in place when the key exists, append
otherwise (CPython keeps the insertion position of an existing key). -/
def insertG {κ α : Type} [DecidableEq κ] : List (κ × α) → κ → α → List (κ × α)
  | [], k, v => [(k, v)]
  | (k', v') :: rest, k, v =>
    if k' = k then (k, v) :: rest else (k', v') :: insertG rest k v

/-! ### File-system state -/

/-- Contents of one file: raw text, or a TOML document (serialisation of
documents is modelled as faithful storage of the tree). -/
inductive FileData where
  | text (s : String)
  | doc (d : Doc)

/-- The explicit file-system state: current working directory, the home
directory, and a table from absolute paths to file contents. -/
structure FS where
  cwd : List String
  home : List String
  files : List (FsPath × FileData)

/-- Resolve a possibly relative path against the working directory, as the
OS does for Path.exists()/open(). -/
def FS.resolve (fs : FS) (p : FsPath) : FsPath :=
  if p.absolute then p else ⟨true, fs.cwd ++ p.segs⟩

def FS.lookup (fs : FS) (p : FsPath) : Option FileData :=
  lookupG fs.files (fs.resolve p)

def FS.write (fs : FS) (p : FsPath) (d : FileData) : FS :=
  { fs with files := insertG fs.files (fs.resolve p) d }

/-! ### The Config object -/

/-- Diagnostics printed by the source on its warning channel. -/
inductive Warning where
  | fileNotFound (p : FsPath)
  | couldNotRead (p : FsPath)
  | couldNotWrite (p : FsPath)
deriving DecidableEq, Repr

inductive LoadErr where
  | fileNotFound (p : FsPath)
  | parseError (p : FsPath)
deriving DecidableEq, Repr

inductive SaveErr where
  | noPath
deriving DecidableEq, Repr

/-- The Config instance state: recorded document path, the live tree, and
the reverse mapping from dotted keys to target file paths. -/
structure Config where
  config_path : Option FsPath
  _data : Doc
  _file_mappings : List (String × FsPath)

/-- Descend through nested mappings; mirrors the loop in Config.get. -/
def getPath : Value → List String → Option Value
  | v, [] => some v
  | .vDict d, k :: ks =>
    match lookupG d k with
    | some v' => getPath v' ks
    | none => none
  | _, _ :: _ => none

/-- Config.get with the default None modelled as none. -/
def Config.get (c : Config) (key : String) : Option Value :=
  getPath (.vDict c._data) (pySplitDot key)

/-- The navigation of Config.set: create (or destructively replace with) an
empty dict at every non-final segment that is missing or not a dict, then
assign the final segment. -/
def setPath (d : Doc) : List String → Value → Doc
  | [], _ => d
  | [k], v => insertG d k v
  | k :: k2 :: ks, v =>
    let sub : Doc :=
      match lookupG d k with
      | some (.vDict d') => d'
      | _ => []
    insertG d k (.vDict (setPath sub (k2 :: ks) v))

def Config.set (c : Config) (key : String) (v : Value) : Config :=
  { c with _data := setPath c._data (pySplitDot key) v }

def Config.list_sections (c : Config) : List String :=
  (c._data.filter (fun kv => kv.2.isDict)).map (fun kv => kv.1)

/-- Config.list_variables: the Python code tests the truthiness of the
section argument, so None and the empty string both take the top-level
branch; a given section is looked up with default {} and all its keys are
returned when it is a dict. -/
def Config.list_variables (c : Config) (s : Option String) : List String :=
  if (s.getD "") ≠ "" then
    match Config.get c (s.getD "") with
    | some (.vDict d) => d.map (fun kv => kv.1)
    | some _ => []
    | none => []
  else
    (c._data.filter (fun kv => !kv.2.isDict)).map (fun kv => kv.1)

/-! ### The indirection resolver (load walk of _process_file_variables)

The source walks the freshly parsed tree in pre-order; a dict value is
recursed into, a string value starting with "file://" is a marker: its path
is stripped, user-expanded, joined to the document's directory when
relative, recorded in the reverse mapping, and the value is replaced by the
stripped contents of the target file when it can be read (otherwise the
marker string stays and a warning is printed). -/

/-- Test of value.startswith("file://"). -/
def isMarker (s : String) : Bool := markerPre.data.isPrefixOf s.data

/-- Model of re.sub applied with the anchored marker pattern: remove one
leading "file://" when present, leave the string unchanged otherwise. -/
def subMarker (s : String) : String :=
  if isMarker s then String.mk (s.data.drop 7) else s

/-- The target path computed by _process_file_variables for a marker
string. -/
def resolveTarget (fs : FS) (cp : Option FsPath) (s : String) : FsPath :=
  let fp0 := FsPath.expanduser fs.home (parsePath (subMarker s))
  match cp with
  | some c => if fp0.absolute then fp0 else FsPath.join c.parent fp0
  | none => fp0

mutual
/-- Value transformation of the load walk over a dict's entries. -/
def loadEntries (fs : FS) (cp : Option FsPath) : Doc → List String → Doc
  | [], _ => []
  | (k, v) :: rest, kp =>
    (k, loadValue fs cp v (kp ++ [k])) :: loadEntries fs cp rest kp

/-- Value transformation of the load walk for one value. -/
def loadValue (fs : FS) (cp : Option FsPath) : Value → List String → Value
  | .vDict d, kp => .vDict (loadEntries fs cp d kp)
  | .vStr s, _ =>
    if isMarker s then
      match fs.lookup (resolveTarget fs cp s) with
      | some (.text content) => .vStr (pyStrip content)
      | some (.doc _) => .vStr s
      | none => .vStr s
    else .vStr s
  | v, _ => v
end

mutual
/-- Reverse-mapping entries recorded by the load walk, in walk order:
(dotted key path, original marker string, resolved target). -/
def collectEntries (fs : FS) (cp : Option FsPath) :
    Doc → List String → List (List String × String × FsPath)
  | [], _ => []
  | (k, v) :: rest, kp =>
    collectValue fs cp v (kp ++ [k]) ++ collectEntries fs cp rest kp

def collectValue (fs : FS) (cp : Option FsPath) :
    Value → List String → List (List String × String × FsPath)
  | .vDict d, kp => collectEntries fs cp d kp
  | .vStr s, kp =>
    if isMarker s then [(kp, s, resolveTarget fs cp s)] else []
  | _, _ => []
end

mutual
/-- Warnings printed by the load walk, in walk order. -/
def warnEntries (fs : FS) (cp : Option FsPath) : Doc → List String → List Warning
  | [], _ => []
  | (k, v) :: rest, kp =>
    warnValue fs cp v (kp ++ [k]) ++ warnEntries fs cp rest kp

def warnValue (fs : FS) (cp : Option FsPath) : Value → List String → List Warning
  | .vDict d, kp => warnEntries fs cp d kp
  | .vStr s, _ =>
    if isMarker s then
      match fs.lookup (resolveTarget fs cp s) with
      | some (.text _) => []
      | some (.doc _) => [.couldNotRead (resolveTarget fs cp s)]
      | none => [.fileNotFound (resolveTarget fs cp s)]
    else []
  | _, _ => []
end

/-- Config.load: the recorded path is updated first, then the file is
required to exist (FileNotFoundError otherwise), then the document is
parsed, the reverse mapping is cleared and rebuilt by the walk. -/
def Config.load (fs : FS) (c : Config) (p : FsPath) :
    Config × Except LoadErr (List Warning) :=
  let c1 := { c with config_path := some p }
  match fs.lookup p with
  | none => (c1, .error (.fileNotFound p))
  | some (.text _) => (c1, .error (.parseError p))
  | some (.doc d) =>
    ({ c1 with
        _data := loadEntries fs (some p) d [],
        _file_mappings :=
          (collectEntries fs (some p) d []).foldl
            (fun m e => insertG m (pyJoinDot e.1) e.2.2) [] },
     .ok (warnEntries fs (some p) d []))

/-! ### The persistence engine (Config.save) -/

def joinCommaSp : List String → String
  | [] => ""
  | [k] => k
  | k :: k2 :: ks => k ++ ", " ++ joinCommaSp (k2 :: ks)

mutual
/-- Python repr() of a value (string escaping is not modelled). -/
def pyRepr : Value → String
  | .vStr s => "'" ++ s ++ "'"
  | .vInt n => toString n
  | .vBool b => if b then "True" else "False"
  | .vArr l => "[" ++ joinCommaSp (pyReprList l) ++ "]"
  | .vDict d => "\x7b" ++ joinCommaSp (pyReprEntries d) ++ "\x7d"

def pyReprList : List Value → List String
  | [] => []
  | v :: vs => pyRepr v :: pyReprList vs

def pyReprEntries : List (String × Value) → List String
  | [] => []
  | (k, v) :: rest => ("'" ++ k ++ "': " ++ pyRepr v) :: pyReprEntries rest
end

/-- Python str() of a value, as written into a marker's target file. -/
def pyStr : Value → String
  | .vStr s => s
  | .vInt n => toString n
  | .vBool b => if b then "True" else "False"
  | .vArr l => "[" ++ joinCommaSp (pyReprList l) ++ "]"
  | .vDict d => "\x7b" ++ joinCommaSp (pyReprEntries d) ++ "\x7d"

/-- The marker string rebuilt by _prepare_data_for_save for a target path:
when the instance has a recorded path and the target is absolute, try
relative_to the recorded path's directory; on ValueError, or when the
stored target is not absolute, use the stored path verbatim. -/
def buildMarker (cp : Option FsPath) (t : FsPath) : String :=
  match cp with
  | some c =>
    if t.absolute then
      match FsPath.relativeTo t c.parent with
      | some rel => markerPre ++ rel.render
      | none => markerPre ++ t.render
    else markerPre ++ t.render
  | none => markerPre ++ t.render

/-- One iteration of the restore loop in _prepare_data_for_save: navigate
the non-final segments requiring dicts (skip the entry on failure), then
overwrite the final key with the marker when that key is present. -/
def restoreKeys (d : Doc) : List String → String → Doc
  | [], _ => d
  | [k], m => if (lookupG d k).isSome then insertG d k (.vStr m) else d
  | k :: k2 :: ks, m =>
    match lookupG d k with
    | some (.vDict sub) => insertG d k (.vDict (restoreKeys sub (k2 :: ks) m))
    | _ => d

/-- _prepare_data_for_save: deep-copy the live tree (value semantics here)
and restore a marker for every reverse-mapping entry. -/
def prepareDataForSave (c : Config) : Doc :=
  c._file_mappings.foldl
    (fun sd e => restoreKeys sd (pySplitDot e.1) (buildMarker c.config_path e.2))
    c._data

/-- _save_file_variables: for every reverse-mapping entry whose dotted key
still resolves in the live tree, overwrite the target file with str() of
the current value.  (Write failures, which the source turns into warnings,
cannot occur in this file-system model.) -/
def saveFileVariables (fs : FS) (c : Config) : FS :=
  c._file_mappings.foldl
    (fun acc e =>
      match Config.get c e.1 with
      | some v => acc.write e.2 (.text (pyStr v))
      | none => acc)
    fs

/-- Config.save: choose the destination (argument, else the recorded path,
else error), write the file-backed variables back, build the save-time copy
with markers restored (against the still-unchanged recorded path), write the
document, and only then update the recorded path to the destination. -/
def Config.save (fs : FS) (c : Config) (p : Option FsPath) :
    Config × FS × Except SaveErr Unit :=
  let dest := match p with
    | some q => some q
    | none => c.config_path
  match dest with
  | none => (c, fs, .error .noPath)
  | some sp =>
    let fs1 := saveFileVariables fs c
    let sd := prepareDataForSave c
    let fs2 := fs1.write sp (.doc sd)
    ({ c with config_path := some sp }, fs2, .ok ())

/-! ### Basic lemmas about the dict operations -/

theorem lookupG_insertG_self {κ α : Type} [DecidableEq κ]
    (d : List (κ × α)) (k : κ) (v : α) :
    lookupG (insertG d k v) k = some v := by
  induction d with
  | nil => simp [insertG, lookupG]
  | cons hd tl ih =>
    by_cases h : hd.1 = k
    · simp [insertG, h, lookupG]
    · simp [insertG, h, lookupG, ih]

theorem lookupG_insertG_ne {κ α : Type} [DecidableEq κ]
    (d : List (κ × α)) (k k' : κ) (v : α) (hne : k ≠ k') :
    lookupG (insertG d k v) k' = lookupG d k' := by
  induction d with
  | nil => simp [insertG, lookupG, hne]
  | cons hd tl ih =>
    by_cases h : hd.1 = k
    · simp [insertG, h, lookupG, hne]
    · simp [insertG, h, lookupG, ih]

theorem insertG_self_of_lookup {κ α : Type} [DecidableEq κ]
    (d : List (κ × α)) (k : κ) (v : α) (h : lookupG d k = some v) :
    insertG d k v = d := by
  induction d with
  | nil => simp [lookupG] at h
  | cons hd tl ih =>
    obtain ⟨k', v'⟩ := hd
    by_cases hk : k' = k
    · simp [lookupG, hk] at h
      simp [insertG, hk, h]
    · simp [lookupG, hk] at h
      simp [insertG, hk, ih h]

theorem mem_of_lookupG {κ α : Type} [DecidableEq κ]
    {d : List (κ × α)} {k : κ} {v : α} (h : lookupG d k = some v) :
    (k, v) ∈ d := by
  induction d with
  | nil => simp [lookupG] at h
  | cons hd tl ih =>
    obtain ⟨k', v'⟩ := hd
    by_cases hk : k' = k
    · simp [lookupG, hk] at h
      subst hk
      subst h
      exact List.mem_cons_self _ _
    · simp [lookupG, hk] at h
      exact List.mem_cons_of_mem _ (ih h)

theorem lookupG_isSome_of_mem {κ α : Type} [DecidableEq κ]
    {d : List (κ × α)} {k : κ} {v : α} (h : (k, v) ∈ d) :
    (lookupG d k).isSome = true := by
  induction d with
  | nil => simp at h
  | cons hd tl ih =>
    rcases List.mem_cons.mp h with h1 | h1
    · simp [lookupG, ← h1]
    · by_cases hk : hd.1 = k
      · simp [lookupG, hk]
      · simp [lookupG, hk, ih h1]

theorem lookupG_eq_none {κ α : Type} [DecidableEq κ]
    {d : List (κ × α)} {k : κ} (h : ∀ e ∈ d, e.1 ≠ k) :
    lookupG d k = none := by
  induction d with
  | nil => rfl
  | cons hd tl ih =>
    have := h hd (List.mem_cons_self _ _)
    simp [lookupG, this]
    exact ih (fun e he => h e (List.mem_cons_of_mem _ he))

theorem lookupG_of_mem_nodup {κ α : Type} [DecidableEq κ]
    {d : List (κ × α)} {k : κ} {v : α}
    (hmem : (k, v) ∈ d) (hnd : (d.map (fun e => e.1)).Nodup) :
    lookupG d k = some v := by
  induction d with
  | nil => simp at hmem
  | cons hd tl ih =>
    rcases List.mem_cons.mp hmem with h1 | h1
    · simp [← h1, lookupG]
    · rw [List.map_cons, List.nodup_cons] at hnd
      have hk : hd.1 ≠ k := by
        intro hh
        exact hnd.1 (by
          rw [hh]
          exact List.mem_map.mpr ⟨(k, v), h1, rfl⟩)
      simp [lookupG, hk]
      exact ih h1 hnd.2

theorem lookupG_ne_none_of_mem {κ α : Type} [DecidableEq κ]
    {d : List (κ × α)} {k : κ} {v : α} (h : (k, v) ∈ d) :
    lookupG d k ≠ none := by
  intro hn
  have := lookupG_isSome_of_mem h
  rw [hn] at this
  simp at this

/-! ### C5: save never mutates the live tree -/

/-- The claim C5 theorem below needs only that save leaves `_data` alone. -/
theorem save_data_eq (fs : FS) (c : Config) (p : Option FsPath) :
    ((Config.save fs c p).1)._data = c._data := by
  unfold Config.save
  cases p with
  | none =>
    cases c.config_path <;> rfl
  | some q => rfl

/-- C5: save() never mutates the live document tree: for every dotted path,
get() after save() returns the same value it returned before the save (in
particular never a restored file:// marker where a dereferenced value was
held).  Proved without any success hypothesis: both the error path and the
success path of save leave the tree untouched. -/
theorem C5_save_preserves_get (fs : FS) (c : Config) (p : Option FsPath)
    (key : String) :
    ((Config.save fs c p).1).get key = c.get key := by
  unfold Config.get
  rw [save_data_eq]

/-! ### C8: set followed by get -/

theorem splitCharL_ne_nil (sep : Char) (l : List Char) : splitCharL sep l ≠ [] := by
  cases l with
  | nil => simp [splitCharL]
  | cons c cs =>
    simp only [splitCharL]
    split
    · simp
    · split <;> simp

theorem pySplitDot_ne_nil (s : String) : pySplitDot s ≠ [] := by
  unfold pySplitDot
  simp [splitCharL_ne_nil]

theorem getPath_setPath (v : Value) :
    ∀ (ks : List String) (d : Doc), ks ≠ [] →
    getPath (.vDict (setPath d ks v)) ks = some v := by
  intro ks
  induction ks with
  | nil => intro d h; exact absurd rfl h
  | cons k rest ih =>
    intro d _
    cases rest with
    | nil =>
      simp [setPath, getPath, lookupG_insertG_self]
    | cons k2 ks2 =>
      simp only [setPath, getPath]
      rw [lookupG_insertG_self]
      exact ih _ (by simp)

/-- C8: for every handle, dotted path and value, set followed by get on the
same path returns exactly that value, whatever the tree held before
(including scalars along the way, which set destructively replaces). -/
theorem C8_set_then_get (c : Config) (key : String) (v : Value) :
    (c.set key v).get key = some v := by
  unfold Config.set Config.get
  exact getPath_setPath v (pySplitDot key) c._data (pySplitDot_ne_nil key)

/-! ### C10: load of a nonexistent path -/

/-- C10: loading a nonexistent path raises the not-found error while the
document tree and reverse mapping keep their prior contents, but the
recorded config path has already been switched to the failing path. -/
theorem C10_load_missing (fs : FS) (c : Config) (p : FsPath)
    (h : fs.lookup p = none) :
    (Config.load fs c p).1._data = c._data ∧
    (Config.load fs c p).1._file_mappings = c._file_mappings ∧
    (Config.load fs c p).1.config_path = some p ∧
    (Config.load fs c p).2 = .error (.fileNotFound p) := by
  simp [Config.load, h]

theorem C10_witness :
    (Config.load ⟨[], [], []⟩ ⟨some ⟨true, ["old"]⟩, [("a", .vInt 1)],
        [("k", ⟨true, ["t"]⟩)]⟩ ⟨true, ["nope"]⟩).1._data
        = [("a", Value.vInt 1)] ∧
    (Config.load ⟨[], [], []⟩ ⟨some ⟨true, ["old"]⟩, [("a", .vInt 1)],
        [("k", ⟨true, ["t"]⟩)]⟩ ⟨true, ["nope"]⟩).1._file_mappings
        = [("k", ⟨true, ["t"]⟩)] ∧
    (Config.load ⟨[], [], []⟩ ⟨some ⟨true, ["old"]⟩, [("a", .vInt 1)],
        [("k", ⟨true, ["t"]⟩)]⟩ ⟨true, ["nope"]⟩).1.config_path
        = some ⟨true, ["nope"]⟩ ∧
    (Config.load ⟨[], [], []⟩ ⟨some ⟨true, ["old"]⟩, [("a", .vInt 1)],
        [("k", ⟨true, ["t"]⟩)]⟩ ⟨true, ["nope"]⟩).2
        = .error (.fileNotFound ⟨true, ["nope"]⟩) :=
  C10_load_missing ⟨[], [], []⟩ ⟨some ⟨true, ["old"]⟩, [("a", .vInt 1)],
    [("k", ⟨true, ["t"]⟩)]⟩ ⟨true, ["nope"]⟩ rfl

/-! ### C6: list_variables -/

def c6ex : Config := ⟨none, [("a", .vDict [("b", .vDict [("c", .vInt 1)])])], []⟩

/-- C6 counterexample: the claim says list_variables(section) returns
exactly the keys whose values are not mappings, which here would be the
empty list; the code returns every key of the section, including the
mapping-valued key "b". -/
theorem C6_counterexample :
    Config.list_variables c6ex (some ("a")) = ["b"] ∧
    Config.get c6ex ("a.b") = some (.vDict [("c", .vInt 1)]) :=
  ⟨rfl, rfl⟩

/-- C6 amended: for a nonempty section name, list_variables returns all
keys of the addressed sub-document when it is a mapping (whether or not the
values are themselves mappings), and the empty list when the section is
absent or not a mapping; the empty-string section is treated like an
omitted section (top-level non-mapping keys), because the code tests the
argument's truthiness. -/
theorem C6_list_variables_amended (c : Config) (s : String) (hs : s ≠ "") :
    (∀ d, Config.get c s = some (.vDict d) →
      Config.list_variables c (some s) = d.map (fun kv => kv.1)) ∧
    (∀ v, Config.get c s = some v → v.isDict = false →
      Config.list_variables c (some s) = []) ∧
    (Config.get c s = none → Config.list_variables c (some s) = []) ∧
    Config.list_variables c (some ("")) = Config.list_variables c none := by
  refine ⟨?_, ?_, ?_, ?_⟩
  · intro d hd
    simp [Config.list_variables, hs, hd]
  · intro v hv hnd
    cases v <;> simp_all [Config.list_variables, hs, Value.isDict]
  · intro h
    simp [Config.list_variables, hs, h]
  · simp [Config.list_variables]

theorem C6_witness :
    Config.list_variables c6ex (some ("a")) = ["b"] :=
  (C6_list_variables_amended c6ex ("a") (by decide)).1
    [("b", .vDict [("c", .vInt 1)])] rfl

/-! ### C7: the snapshot accessor Config.data

The source of the accessor is `return self._data.copy()`.  In the pure tree
model a copy is invisible, so this view keeps the source name: -/

def Config.data (c : Config) : Doc := c._data

/- What claim C7 asserts is about Python reference semantics: dict.copy()
allocates a new top-level dict object whose entries reference the very same
nested objects.  To settle the claim, this section models the heap of dict
objects explicitly: a value slot holds either an immutable scalar or a
reference (address) to a dict object. -/

inductive PyVal where
  | scalar (v : Value)
  | ref (addr : Nat)

structure PyHeap where
  objs : List (List (String × PyVal))

def PyHeap.getObj (h : PyHeap) (a : Nat) : List (String × PyVal) :=
  h.objs.getD a []

def PyHeap.setObj (h : PyHeap) (a : Nat) (o : List (String × PyVal)) : PyHeap :=
  ⟨h.objs.set a o⟩

/-- Read a dotted path through references: the heap analogue of the descent
performed by Config.get on the live tree. -/
def heapRead (h : PyHeap) (a : Nat) : List String → Option PyVal
  | [] => some (.ref a)
  | k :: ks =>
    match lookupG (h.getObj a) k with
    | some (.ref a') => heapRead h a' ks
    | some (.scalar v) => if ks = [] then some (.scalar v) else none
    | none => none

/-- The `self._data.copy()` line of Config.data under reference semantics:
allocate a fresh dict object with the same entry list; the nested dict
objects are shared, not copied. -/
def heapCopy (h : PyHeap) (a : Nat) : PyHeap × Nat :=
  (⟨h.objs ++ [h.getObj a]⟩, h.objs.length)

/-- A caller mutation snap[k1][k2]...[kn] = v performed on the returned
snapshot: descend the references of the non-final segments, then assign the
final key in the dict object reached. -/
def heapSetPath (h : PyHeap) (a : Nat) : List String → PyVal → PyHeap
  | [], _ => h
  | [k], v => h.setObj a (insertG (h.getObj a) k v)
  | k :: k2 :: ks, v =>
    match lookupG (h.getObj a) k with
    | some (.ref a') => heapSetPath h a' (k2 :: ks) v
    | _ => h

/-- Every reference stored in the heap points at an existing object. -/
def HeapWFB (h : PyHeap) : Bool :=
  h.objs.all (fun o => o.all (fun kv =>
    match kv.2 with
    | .ref a => decide (a < h.objs.length)
    | _ => true))

def h7ex : PyHeap := ⟨[[("a", .ref 1)], [("b", .scalar (.vInt 1))]]⟩

/-- C7 counterexample: the snapshot is a shallow copy, so a depth-two caller
mutation through the returned structure (here snap["a"]["b"] = 2) changes
the value the handle subsequently reads at "a.b" from 1 to 2, refuting
"no mutation at any nesting depth changes the values observed through
get()". -/
theorem C7_counterexample :
    heapRead h7ex 0 ["a", "b"] = some (.scalar (.vInt 1)) ∧
    heapRead (heapSetPath (heapCopy h7ex 0).1 (heapCopy h7ex 0).2 ["a", "b"]
        (.scalar (.vInt 2))) 0 ["a", "b"] = some (.scalar (.vInt 2)) :=
  ⟨rfl, rfl⟩

theorem getObj_mem {h : PyHeap} {a : Nat} (ha : a < h.objs.length) :
    h.getObj a ∈ h.objs := by
  unfold PyHeap.getObj
  rw [List.getD_eq_getElem _ _ ha]
  exact List.getElem_mem _

theorem heapWF_ref_lt {h : PyHeap} (hwf : HeapWFB h = true) {a a' : Nat}
    (ha : a < h.objs.length) {k : String}
    (hl : lookupG (h.getObj a) k = some (.ref a')) :
    a' < h.objs.length := by
  unfold HeapWFB at hwf
  rw [List.all_eq_true] at hwf
  have h1 := hwf _ (getObj_mem ha)
  rw [List.all_eq_true] at h1
  have h2 := h1 _ (mem_of_lookupG hl)
  simpa using h2

/-- Reads below the old heap length are insensitive to heap extensions and
to writes at fresh addresses. -/
theorem heapRead_agree (h h' : PyHeap)
    (hag : ∀ a, a < h.objs.length → h'.getObj a = h.getObj a)
    (hwf : HeapWFB h = true) :
    ∀ (path : List String) (a : Nat), a < h.objs.length →
      heapRead h' a path = heapRead h a path := by
  intro path
  induction path with
  | nil => intro a _; rfl
  | cons k ks ih =>
    intro a ha
    simp only [heapRead]
    rw [hag a ha]
    cases hv : lookupG (h.getObj a) k with
    | none => rfl
    | some pv =>
      cases pv with
      | scalar w => rfl
      | ref a' => exact ih a' (heapWF_ref_lt hwf ha hv)

theorem listGetD_append {α : Type} (l l2 : List α) (d : α) :
    ∀ i, i < l.length → (l ++ l2).getD i d = l.getD i d := by
  induction l with
  | nil => intro i hi; simp at hi
  | cons hd tl ih =>
    intro i hi
    cases i with
    | zero => rfl
    | succ i' =>
      rw [List.cons_append, List.getD_cons_succ, List.getD_cons_succ]
      exact ih i' (by simp at hi; omega)

theorem listGetD_set_lt {α : Type} (l : List α) (o d : α) :
    ∀ (j i : Nat), i < j → (l.set j o).getD i d = l.getD i d := by
  induction l with
  | nil => intro j i _; cases j <;> rfl
  | cons hd tl ih =>
    intro j i hij
    cases j with
    | zero => omega
    | succ j' =>
      cases i with
      | zero => rfl
      | succ i' =>
        rw [List.set_cons_succ, List.getD_cons_succ, List.getD_cons_succ]
        exact ih j' i' (by omega)

/-- C7 amended: Config.data returns a shallow copy.  The top level is
independent: a caller assignment at the top level of the snapshot (any
snap[k] = v) never changes any value the handle observes — proved here for
every well-formed heap, handle dict and path.  (Nested mappings are shared,
as the counterexample shows.) -/
theorem C7_data_shallow_top_level (h : PyHeap) (root : Nat)
    (hwf : HeapWFB h = true) (hroot : root < h.objs.length)
    (k : String) (v : PyVal) (path : List String) :
    heapRead (heapSetPath (heapCopy h root).1 (heapCopy h root).2 [k] v)
        root path = heapRead h root path := by
  apply heapRead_agree h _ _ hwf path root hroot
  intro a ha
  show (((h.objs ++ [h.getObj root]).set h.objs.length _).getD a []) = _
  rw [listGetD_set_lt _ _ _ _ _ ha, listGetD_append _ _ _ _ ha]
  rfl

theorem C7_witness :
    heapRead (heapSetPath (heapCopy h7ex 0).1 (heapCopy h7ex 0).2 ["c"]
        (.scalar (.vInt 9))) 0 ["a", "b"] = heapRead h7ex 0 ["a", "b"] :=
  C7_data_shallow_top_level h7ex 0 (by decide) (by decide) "c"
    (.scalar (.vInt 9)) ["a", "b"]

/-! ### Key uniqueness of a document (the Python dict invariant) -/

mutual
/-- Keys are unique in every mapping of the value (true of any tree that
came out of a Python dict). -/
def keysNodupV : Value → Bool
  | .vDict d => keysNodupD d
  | _ => true

def keysNodupD : Doc → Bool
  | [] => true
  | (k, v) :: rest =>
    rest.all (fun e => e.1 != k) && keysNodupV v && keysNodupD rest
end

theorem sizeOf_val_lt_entries {d : Doc} {k : String} {v : Value}
    (h : (k, v) ∈ d) : sizeOf v < sizeOf d := by
  induction d with
  | nil => simp at h
  | cons hd tl ih =>
    rcases List.mem_cons.mp h with h1 | h1
    · rw [← h1]
      simp
      omega
    · have := ih h1
      simp
      omega

/-! ### Positional characterisation of the load walk -/

theorem lookupG_loadEntries (fs : FS) (cp : Option FsPath) (k : String) :
    ∀ (d : Doc) (kp : List String),
    lookupG (loadEntries fs cp d kp) k
      = (lookupG d k).map (fun w => loadValue fs cp w (kp ++ [k])) := by
  intro d
  induction d with
  | nil => intro kp; rfl
  | cons hd tl ih =>
    intro kp
    obtain ⟨k', v'⟩ := hd
    by_cases hk : k' = k
    · subst hk
      simp [loadEntries, lookupG]
    · simp [loadEntries, lookupG, hk, ih]

/-- getPath through the loaded tree is getPath through the raw tree with the
load transformation applied at the addressed position. -/
theorem getPath_loadValue (fs : FS) (cp : Option FsPath) :
    ∀ (suf : List String) (v : Value) (kp : List String),
    getPath (loadValue fs cp v kp) suf
      = (getPath v suf).map (fun w => loadValue fs cp w (kp ++ suf)) := by
  intro suf
  induction suf with
  | nil => intro v kp; simp [getPath]
  | cons k rest ih =>
    intro v kp
    cases v with
    | vDict d =>
      simp only [loadValue, getPath, lookupG_loadEntries]
      cases hlk : lookupG d k with
      | none => rfl
      | some w =>
        show getPath (loadValue fs cp w (kp ++ [k])) rest
          = Option.map (fun w => loadValue fs cp w (kp ++ k :: rest))
              (getPath w rest)
        rw [ih w (kp ++ [k])]
        simp
    | vStr s =>
      have hrhs : getPath (Value.vStr s) (k :: rest) = none := rfl
      rw [hrhs]
      simp only [loadValue]
      cases hm : isMarker s
      · simp
        rfl
      · simp
        cases fs.lookup (resolveTarget fs cp s) with
        | none => rfl
        | some fd => cases fd <;> rfl
    | vInt n => rfl
    | vBool b => rfl
    | vArr l => rfl

/-- Every reverse-mapping entry collected by the walk comes from an actual
marker leaf: the collected path addresses, in the raw tree, the original
marker string, and the collected target is its resolution.  (Key uniqueness
is needed because a duplicated key would make the address find the first
occurrence rather than the walked one.) -/
theorem collect_at_aux (fs : FS) (cp : Option FsPath) :
    ∀ n : Nat,
      (∀ (v : Value), sizeOf v ≤ n → ∀ kp q s t, keysNodupV v = true →
        (q, s, t) ∈ collectValue fs cp v kp →
        ∃ suf, q = kp ++ suf ∧ getPath v suf = some (.vStr s) ∧
          isMarker s = true ∧ t = resolveTarget fs cp s) ∧
      (∀ (d : Doc), sizeOf d ≤ n → ∀ kp q s t, keysNodupD d = true →
        (q, s, t) ∈ collectEntries fs cp d kp →
        ∃ k0 suf, q = kp ++ k0 :: suf ∧ (k0 ∈ d.map (fun e => e.1)) ∧
          getPath (.vDict d) (k0 :: suf) = some (.vStr s) ∧
          isMarker s = true ∧ t = resolveTarget fs cp s) := by
  intro n
  induction n with
  | zero =>
    constructor
    · intro v hv
      exfalso
      cases v <;> simp at hv
    · intro d hd
      exfalso
      cases d <;> simp at hd
  | succ n ih =>
    constructor
    · intro v hv kp q s t hnd hmem
      cases v with
      | vStr s' =>
        simp only [collectValue] at hmem
        by_cases hm : isMarker s'
        · simp [hm] at hmem
          obtain ⟨h1, h2, h3⟩ := hmem
          exact ⟨[], by simp [h1], by simp [getPath, h2], by rw [h2]; exact hm,
            by rw [h3, h2]⟩
        · simp [hm] at hmem
      | vDict d =>
        simp only [collectValue] at hmem
        simp only [keysNodupV] at hnd
        have hd : sizeOf d ≤ n := by
          simp at hv
          omega
        obtain ⟨k0, suf, h1, _, h3, h4, h5⟩ := ih.2 d hd kp q s t hnd hmem
        exact ⟨k0 :: suf, h1, h3, h4, h5⟩
      | vInt m => simp [collectValue] at hmem
      | vBool b => simp [collectValue] at hmem
      | vArr l => simp [collectValue] at hmem
    · intro d hd kp q s t hnd hmem
      cases d with
      | nil => simp [collectEntries] at hmem
      | cons hd0 tl =>
        obtain ⟨k', v'⟩ := hd0
        simp only [collectEntries] at hmem
        simp only [keysNodupD, Bool.and_eq_true, Bool.not_eq_true'] at hnd
        obtain ⟨⟨hcont, hndv⟩, hndtl⟩ := hnd
        rcases List.mem_append.mp hmem with hm1 | hm1
        · have hv : sizeOf v' ≤ n := by
            simp at hd
            omega
          obtain ⟨suf, h1, h2, h3, h4⟩ := ih.1 v' hv (kp ++ [k']) q s t hndv hm1
          refine ⟨k', suf, by simp [h1], by simp, ?_, h3, h4⟩
          simp [getPath, lookupG, h2]
        · have htl : sizeOf tl ≤ n := by
            simp at hd
            omega
          obtain ⟨k0, suf, h1, h2, h3, h4, h5⟩ := ih.2 tl htl kp q s t hndtl hm1
          have hk : k' ≠ k0 := by
            intro hh
            obtain ⟨e, he, hee⟩ := List.mem_map.mp h2
            have hne := List.all_eq_true.mp hcont e he
            rw [bne_iff_ne] at hne
            exact hne (hee.trans hh.symm)
          refine ⟨k0, suf, h1, by simp; right; simpa using h2, ?_, h4, h5⟩
          simp only [getPath, lookupG, if_neg hk]
          simpa [getPath] using h3

theorem collect_at (fs : FS) (cp : Option FsPath) {d : Doc} {q : List String}
    {s : String} {t : FsPath} (hnd : keysNodupD d = true)
    (hmem : (q, s, t) ∈ collectEntries fs cp d []) :
    q ≠ [] ∧ getPath (.vDict d) q = some (.vStr s) ∧ isMarker s = true ∧
      t = resolveTarget fs cp s := by
  obtain ⟨k0, suf, h1, _, h3, h4, h5⟩ :=
    (collect_at_aux fs cp (sizeOf d)).2 d le_rfl [] q s t hnd hmem
  simp only [List.nil_append] at h1
  subst h1
  exact ⟨by simp, h3, h4, h5⟩

/-- A collect entry whose target file is missing yields the file-not-found
warning on the diagnostics channel. -/
theorem warn_of_collect_aux (fs : FS) (cp : Option FsPath) :
    ∀ n : Nat,
      (∀ (v : Value), sizeOf v ≤ n → ∀ kp q s t,
        (q, s, t) ∈ collectValue fs cp v kp → fs.lookup t = none →
        Warning.fileNotFound t ∈ warnValue fs cp v kp) ∧
      (∀ (d : Doc), sizeOf d ≤ n → ∀ kp q s t,
        (q, s, t) ∈ collectEntries fs cp d kp → fs.lookup t = none →
        Warning.fileNotFound t ∈ warnEntries fs cp d kp) := by
  intro n
  induction n with
  | zero =>
    constructor
    · intro v hv
      exfalso
      cases v <;> simp at hv
    · intro d hd
      exfalso
      cases d <;> simp at hd
  | succ n ih =>
    constructor
    · intro v hv kp q s t hmem hmiss
      cases v with
      | vStr s' =>
        simp only [collectValue] at hmem
        by_cases hm : isMarker s'
        · simp [hm] at hmem
          obtain ⟨_, h2, h3⟩ := hmem
          simp [warnValue, hm, ← h3, hmiss]
        · simp [hm] at hmem
      | vDict d =>
        simp only [collectValue] at hmem
        simp only [warnValue]
        exact ih.2 d (by simp at hv; omega) kp q s t hmem hmiss
      | vInt m => simp [collectValue] at hmem
      | vBool b => simp [collectValue] at hmem
      | vArr l => simp [collectValue] at hmem
    · intro d hd kp q s t hmem hmiss
      cases d with
      | nil => simp [collectEntries] at hmem
      | cons hd0 tl =>
        obtain ⟨k', v'⟩ := hd0
        simp only [collectEntries] at hmem
        simp only [warnEntries]
        rcases List.mem_append.mp hmem with hm1 | hm1
        · exact List.mem_append.mpr
            (Or.inl (ih.1 v' (by simp at hd; omega) _ q s t hm1 hmiss))
        · exact List.mem_append.mpr
            (Or.inr (ih.2 tl (by simp at hd; omega) kp q s t hm1 hmiss))

/-! ### The reverse mapping built by load -/

theorem insertG_fresh {κ α : Type} [DecidableEq κ]
    (m : List (κ × α)) (k : κ) (v : α) (h : ∀ e ∈ m, e.1 ≠ k) :
    insertG m k v = m ++ [(k, v)] := by
  induction m with
  | nil => rfl
  | cons hd tl ih =>
    have h0 := h hd (List.mem_cons_self _ _)
    simp [insertG, h0]
    exact ih (fun e he => h e (List.mem_cons_of_mem _ he))

theorem foldl_insertG_nodup {κ α : Type} [DecidableEq κ] :
    ∀ (l m : List (κ × α)),
      ((m ++ l).map (fun e => e.1)).Nodup →
      l.foldl (fun acc e => insertG acc e.1 e.2) m = m ++ l := by
  intro l
  induction l with
  | nil =>
    intro m _
    simp
  | cons e rest ih =>
    intro m hnd
    simp only [List.foldl_cons]
    have hfresh : ∀ e' ∈ m, e'.1 ≠ e.1 := by
      intro e' he' hh
      rw [List.map_append, List.nodup_append] at hnd
      exact hnd.2.2 (List.mem_map.mpr ⟨e', he', rfl⟩) (by rw [hh]; simp)
    rw [insertG_fresh m e.1 e.2 hfresh]
    rw [show m ++ [(e.1, e.2)] = m ++ [e] from by simp]
    rw [ih (m ++ [e]) (by simpa using hnd)]
    simp

theorem load_file_mappings (fs : FS) (c : Config) (p : FsPath) (d : Doc)
    (hdoc : fs.lookup p = some (.doc d))
    (hjnd : ((collectEntries fs (some p) d []).map
      (fun e => pyJoinDot e.1)).Nodup) :
    (Config.load fs c p).1._file_mappings
      = (collectEntries fs (some p) d []).map
          (fun e => (pyJoinDot e.1, e.2.2)) := by
  simp only [Config.load, hdoc]
  have h1 : ((collectEntries fs (some p) d []).map
        (fun e => (pyJoinDot e.1, e.2.2))).foldl
          (fun acc e => insertG acc e.1 e.2) []
      = (collectEntries fs (some p) d []).foldl
          (fun m e => insertG m (pyJoinDot e.1) e.2.2) [] := by
    rw [List.foldl_map]
  rw [← h1,
    foldl_insertG_nodup _ [] (by simpa [List.map_map, Function.comp] using hjnd)]
  simp

/-! ### C9: missing indirection target at load time -/

/-- C9: when load meets a marker whose resolved target does not exist, the
load still succeeds (returning the warning list, not an exception), the
file-not-found warning is on the diagnostics channel, the literal marker
string is left as the value of that dotted path, and the reverse-mapping
entry for the path is recorded with the resolved target.  The uniqueness
hypotheses state the Python dict key invariant and that no two walked
positions collide on the same dotted key. -/
theorem C9_missing_target (fs : FS) (c : Config) (p : FsPath) (d : Doc)
    (q : List String) (s : String) (t : FsPath)
    (hdoc : fs.lookup p = some (.doc d))
    (hnd : keysNodupD d = true)
    (hmem : (q, s, t) ∈ collectEntries fs (some p) d [])
    (hmiss : fs.lookup t = none)
    (hjnd : ((collectEntries fs (some p) d []).map
      (fun e => pyJoinDot e.1)).Nodup) :
    (Config.load fs c p).2 = .ok (warnEntries fs (some p) d []) ∧
    Warning.fileNotFound t ∈ warnEntries fs (some p) d [] ∧
    getPath (.vDict ((Config.load fs c p).1._data)) q = some (.vStr s) ∧
    lookupG ((Config.load fs c p).1._file_mappings) (pyJoinDot q) = some t := by
  obtain ⟨hq, hgp, hmk, htg⟩ := collect_at fs (some p) hnd hmem
  refine ⟨?_, ?_, ?_, ?_⟩
  · simp [Config.load, hdoc]
  · exact (warn_of_collect_aux fs (some p) (sizeOf d)).2 d le_rfl [] q s t
      hmem hmiss
  · have hdata : (Config.load fs c p).1._data = loadEntries fs (some p) d [] := by
      simp [Config.load, hdoc]
    rw [hdata]
    have hstep : getPath (.vDict (loadEntries fs (some p) d [])) q =
        (getPath (.vDict d) q).map (fun w => loadValue fs (some p) w ([] ++ q)) := by
      have h := getPath_loadValue fs (some p) q (.vDict d) []
      simpa [loadValue] using h
    rw [hstep, hgp]
    show some (loadValue fs (some p) (.vStr s) ([] ++ q)) = some (.vStr s)
    simp [loadValue, hmk, ← htg, hmiss]
  · rw [load_file_mappings fs c p d hdoc hjnd]
    apply lookupG_of_mem_nodup
    · exact List.mem_map.mpr ⟨(q, s, t), hmem, rfl⟩
    · simpa [List.map_map, Function.comp] using hjnd

def c9fs : FS := ⟨["w"], ["h"],
  [(⟨true, ["cfg", "app.toml"]⟩,
    .doc [("secrets", .vDict [("key", .vStr "file://content.txt")])])]⟩

theorem c9collect :
    collectEntries c9fs (some ⟨true, ["cfg", "app.toml"]⟩)
        [("secrets", .vDict [("key", .vStr "file://content.txt")])] []
      = [(["secrets", "key"], "file://content.txt",
          ⟨true, ["cfg", "content.txt"]⟩)] := rfl

theorem C9_witness :
    (Config.load c9fs ⟨none, [], []⟩ ⟨true, ["cfg", "app.toml"]⟩).2
      = .ok (warnEntries c9fs (some ⟨true, ["cfg", "app.toml"]⟩)
          [("secrets", .vDict [("key", .vStr "file://content.txt")])] []) ∧
    Warning.fileNotFound ⟨true, ["cfg", "content.txt"]⟩
      ∈ warnEntries c9fs (some ⟨true, ["cfg", "app.toml"]⟩)
          [("secrets", .vDict [("key", .vStr "file://content.txt")])] [] ∧
    getPath (.vDict ((Config.load c9fs ⟨none, [], []⟩
        ⟨true, ["cfg", "app.toml"]⟩).1._data)) ["secrets", "key"]
      = some (.vStr "file://content.txt") ∧
    lookupG ((Config.load c9fs ⟨none, [], []⟩
        ⟨true, ["cfg", "app.toml"]⟩).1._file_mappings)
        (pyJoinDot ["secrets", "key"])
      = some ⟨true, ["cfg", "content.txt"]⟩ :=
  C9_missing_target c9fs ⟨none, [], []⟩ ⟨true, ["cfg", "app.toml"]⟩
    [("secrets", .vDict [("key", .vStr "file://content.txt")])]
    ["secrets", "key"] "file://content.txt" ⟨true, ["cfg", "content.txt"]⟩
    rfl rfl
    (by
      rw [c9collect]
      exact List.mem_singleton.mpr rfl)
    rfl
    (by
      rw [c9collect]
      decide)

/-! ### String and path round-trip lemmas -/

theorem length_dropWhile_le (p : Char → Bool) :
    ∀ l : List Char, (l.dropWhile p).length ≤ l.length := by
  intro l
  induction l with
  | nil => simp
  | cons a as ih =>
    by_cases h : p a
    · rw [List.dropWhile_cons, if_pos h]
      simp
      omega
    · rw [List.dropWhile_cons, if_neg h]

theorem dropWhile_idem (p : Char → Bool) :
    ∀ l : List Char, (l.dropWhile p).dropWhile p = l.dropWhile p := by
  intro l
  induction l with
  | nil => rfl
  | cons a as ih =>
    by_cases h : p a
    · simp [List.dropWhile_cons, h, ih]
    · simp [List.dropWhile_cons, h]

theorem dropWhile_of_head_clean (p : Char → Bool) :
    ∀ l : List Char, l.dropWhile p = l → (l.reverse.dropWhile p).reverse.dropWhile p
      = (l.reverse.dropWhile p).reverse := by
  intro l hl
  have hsuf : ∃ u, l = ((l.reverse.dropWhile p).reverse) ++ u := by
    obtain ⟨u, hu⟩ := (List.dropWhile_suffix p (l := l.reverse))
    refine ⟨u.reverse, ?_⟩
    have := congrArg List.reverse hu
    simpa using this.symm
  obtain ⟨u, hu⟩ := hsuf
  cases hz : (l.reverse.dropWhile p).reverse with
  | nil => rfl
  | cons c cs =>
    have hlc : ∃ w, l = c :: w := by
      rw [hz] at hu
      exact ⟨cs ++ u, by simpa using hu⟩
    obtain ⟨w, hw⟩ := hlc
    have hpc : p c = false := by
      by_contra hcc
      rw [Bool.not_eq_false] at hcc
      rw [hw, List.dropWhile_cons, if_pos hcc] at hl
      have := congrArg List.length hl
      simp at this
      have hle := length_dropWhile_le p w
      omega
    simp [List.dropWhile_cons, hpc]

/-- Python strip() is idempotent. -/
theorem pyStripL_idem (l : List Char) : pyStripL (pyStripL l) = pyStripL l := by
  unfold pyStripL
  set p := isPySpace
  set y := l.dropWhile p with hy
  have h1 : ((y.reverse.dropWhile p).reverse).dropWhile p
      = (y.reverse.dropWhile p).reverse :=
    dropWhile_of_head_clean p y (by rw [hy]; exact dropWhile_idem p l)
  rw [h1]
  rw [List.reverse_reverse, dropWhile_idem p]

theorem pyStrip_idem (s : String) : pyStrip (pyStrip s) = pyStrip s := by
  unfold pyStrip
  rw [show (String.mk (pyStripL s.data)).data = pyStripL s.data from rfl]
  rw [pyStripL_idem]

/-- Character-list join, the inverse shape of splitCharL. -/
def joinCharL (sep : Char) : List (List Char) → List Char
  | [] => []
  | [x] => x
  | x :: y :: rest => x ++ sep :: joinCharL sep (y :: rest)

theorem splitCharL_no_sep (sep : Char) :
    ∀ l : List Char, sep ∉ l → splitCharL sep l = [l] := by
  intro l
  induction l with
  | nil => intro _; rfl
  | cons c cs ih =>
    intro h
    have hc : ¬c = sep := fun hh => h (by rw [hh]; exact List.mem_cons_self _ _)
    rw [splitCharL, if_neg hc, ih (fun hm => h (List.mem_cons_of_mem _ hm))]

theorem splitCharL_append_sep (sep : Char) :
    ∀ (x l : List Char), sep ∉ x →
      splitCharL sep (x ++ sep :: l) = x :: splitCharL sep l := by
  intro x
  induction x with
  | nil =>
    intro l _
    simp [splitCharL]
  | cons c cs ih =>
    intro l h
    have hc : ¬c = sep := fun hh => h (by rw [hh]; exact List.mem_cons_self _ _)
    rw [List.cons_append, splitCharL, if_neg hc,
      ih l (fun hm => h (List.mem_cons_of_mem _ hm))]

theorem splitCharL_joinCharL (sep : Char) :
    ∀ (parts : List (List Char)), parts ≠ [] → (∀ pt ∈ parts, sep ∉ pt) →
      splitCharL sep (joinCharL sep parts) = parts := by
  intro parts
  induction parts with
  | nil => intro h _; exact absurd rfl h
  | cons x rest ih =>
    intro _ hall
    cases rest with
    | nil =>
      exact splitCharL_no_sep sep x (hall x (List.mem_cons_self _ _))
    | cons y rest2 =>
      rw [joinCharL, splitCharL_append_sep sep x _
        (hall x (List.mem_cons_self _ _))]
      rw [ih (by simp) (fun pt hpt => hall pt (List.mem_cons_of_mem _ hpt))]

theorem map_mk_data : ∀ q : List String, (q.map String.data).map String.mk = q := by
  intro q
  induction q with
  | nil => rfl
  | cons s rest ih => simp [ih]

theorem pyJoinDot_data : ∀ q : List String,
    (pyJoinDot q).data = joinCharL ('.') (q.map String.data) := by
  intro q
  induction q with
  | nil => rfl
  | cons k rest ih =>
    cases rest with
    | nil => rfl
    | cons k2 rest2 =>
      rw [pyJoinDot]
      show (k ++ "." ++ pyJoinDot (k2 :: rest2)).data = _
      rw [String.data_append, String.data_append, ih]
      simp [joinCharL]

theorem joinSlash_data : ∀ q : List String,
    (joinSlash q).data = joinCharL ('/') (q.map String.data) := by
  intro q
  induction q with
  | nil => rfl
  | cons k rest ih =>
    cases rest with
    | nil => rfl
    | cons k2 rest2 =>
      rw [joinSlash]
      show (k ++ "/" ++ joinSlash (k2 :: rest2)).data = _
      rw [String.data_append, String.data_append, ih]
      simp [joinCharL]

/-- key.split(".") inverts ".".join(parts) when no part contains a dot. -/
theorem pySplitDot_pyJoinDot (q : List String) (hne : q ≠ [])
    (hdot : ∀ sg ∈ q, ('.') ∉ sg.data) :
    pySplitDot (pyJoinDot q) = q := by
  unfold pySplitDot
  rw [pyJoinDot_data, splitCharL_joinCharL ('.') (q.map String.data)
    (by simpa using hne)
    (by
      intro pt hpt
      obtain ⟨sg, hsg, rfl⟩ := List.mem_map.mp hpt
      exact hdot sg hsg)]
  exact map_mk_data q

/-! ### Marker string lemmas -/

theorem isPrefixOf_self_append {α : Type} [BEq α] [LawfulBEq α] :
    ∀ (l y : List α), l.isPrefixOf (l ++ y) = true := by
  intro l y
  induction l with
  | nil => simp [List.isPrefixOf]
  | cons a as ih => simp [List.isPrefixOf, ih]

theorem isMarker_pre_append (x : String) : isMarker (markerPre ++ x) = true := by
  unfold isMarker
  rw [String.data_append]
  exact isPrefixOf_self_append _ _

theorem subMarker_pre_append (x : String) : subMarker (markerPre ++ x) = x := by
  unfold subMarker
  rw [if_pos (isMarker_pre_append x), String.data_append]
  rw [show (7 : Nat) = markerPre.data.length from rfl, List.drop_left]

/-! ### Parse/render round trips for clean paths -/

/-- A path segment that renders and re-parses faithfully: nonempty, not
".", no slash inside. -/
def cleanSeg (sg : String) : Bool :=
  sg != "" && sg != "." && sg.data.all (fun c => c != '/')

theorem cleanSeg_parts {sg : String} (h : cleanSeg sg = true) :
    sg ≠ "" ∧ sg ≠ "." ∧ ('/') ∉ sg.data := by
  unfold cleanSeg at h
  simp only [Bool.and_eq_true, bne_iff_ne, List.all_eq_true] at h
  refine ⟨h.1.1, h.1.2, ?_⟩
  intro hm
  have := h.2 _ hm
  simp at this

theorem splitSlash_join (segs : List String) (hne : segs ≠ [])
    (hc : ∀ sg ∈ segs, cleanSeg sg = true) :
    (splitCharL ('/') (joinSlash segs).data).map String.mk = segs := by
  rw [joinSlash_data, splitCharL_joinCharL ('/') _ (by simpa using hne)
    (by
      intro pt hpt
      obtain ⟨sg, hsg, rfl⟩ := List.mem_map.mp hpt
      exact (cleanSeg_parts (hc sg hsg)).2.2)]
  exact map_mk_data segs

theorem filter_cleanSegs (segs : List String)
    (hc : ∀ sg ∈ segs, cleanSeg sg = true) :
    segs.filter (fun t => t != "" && t != ".") = segs := by
  apply List.filter_eq_self.mpr
  intro sg hsg
  have h := cleanSeg_parts (hc sg hsg)
  simp [bne_iff_ne, h.1, h.2.1]

theorem parsePath_render_abs (segs : List String)
    (hc : ∀ sg ∈ segs, cleanSeg sg = true) :
    parsePath (FsPath.render ⟨true, segs⟩) = ⟨true, segs⟩ := by
  cases hsegs : segs with
  | nil => rfl
  | cons s0 rest =>
    subst hsegs
    unfold FsPath.render
    rw [if_pos rfl]
    unfold parsePath
    have hdata : ("/" ++ joinSlash (s0 :: rest)).data
        = '/' :: (joinSlash (s0 :: rest)).data := by
      rw [String.data_append]
      rfl
    simp only [hdata]
    rw [FsPath.mk.injEq]
    constructor
    · rfl
    · rw [show splitCharL ('/') ('/' :: (joinSlash (s0 :: rest)).data)
          = [] :: splitCharL ('/') (joinSlash (s0 :: rest)).data from by
        rw [splitCharL]
        rfl]
      rw [List.map_cons]
      rw [show (String.mk [] : String) = "" from rfl]
      rw [splitSlash_join (s0 :: rest) (by simp) hc]
      rw [show List.filter (fun t => t != "" && t != ".") ("" :: s0 :: rest)
          = List.filter (fun t => t != "" && t != ".") (s0 :: rest) from by
        simp]
      exact filter_cleanSegs _ hc

theorem parsePath_render_rel (segs : List String)
    (hc : ∀ sg ∈ segs, cleanSeg sg = true) :
    parsePath (FsPath.render ⟨false, segs⟩) = ⟨false, segs⟩ := by
  cases hsegs : segs with
  | nil => rfl
  | cons s0 rest =>
    subst hsegs
    unfold FsPath.render
    rw [if_neg (by simp)]
    rw [if_neg (by simp)]
    unfold parsePath
    have hs0 := cleanSeg_parts (hc s0 (by simp))
    obtain ⟨c, cs, hcs⟩ : ∃ c cs, s0.data = c :: cs := by
      cases hd : s0.data with
      | nil =>
        exfalso
        exact hs0.1 (by
          apply String.ext
          rw [hd])
      | cons c cs => exact ⟨c, cs, rfl⟩
    have hcne : c ≠ '/' := by
      intro hh
      apply hs0.2.2
      rw [hcs, hh]
      exact List.mem_cons_self _ _
    obtain ⟨tail, htail⟩ : ∃ tail, (joinSlash (s0 :: rest)).data = c :: tail := by
      cases rest with
      | nil => exact ⟨cs, by rw [show joinSlash [s0] = s0 from rfl, hcs]⟩
      | cons r rs =>
        refine ⟨cs ++ '/' :: (joinSlash (r :: rs)).data, ?_⟩
        rw [show joinSlash (s0 :: r :: rs) = s0 ++ "/" ++ joinSlash (r :: rs)
          from rfl]
        rw [String.data_append, String.data_append, hcs]
        simp
    rw [FsPath.mk.injEq]
    constructor
    · rw [htail]
      split
      · rename_i heq
        exfalso
        apply hcne
        injection heq with h1 _
      · rfl
    · rw [splitSlash_join (s0 :: rest) (by simp) hc]
      exact filter_cleanSegs _ hc

theorem isPreL_append_drop : ∀ (a b : List String), isPreL a b = true →
    a ++ b.drop a.length = b := by
  intro a
  induction a with
  | nil =>
    intro b _
    simp
  | cons x xs ih =>
    intro b h
    cases b with
    | nil => simp [isPreL] at h
    | cons y ys =>
      simp only [isPreL, Bool.and_eq_true, decide_eq_true_eq] at h
      obtain ⟨h1, h2⟩ := h
      subst h1
      simp [ih ys h2]

theorem expanduser_abs (home : List String) (segs : List String) :
    FsPath.expanduser home ⟨true, segs⟩ = ⟨true, segs⟩ := by
  cases segs <;> rfl

theorem expanduser_id (home : List String) (p : FsPath)
    (h : ∀ sg ∈ p.segs, sg ≠ "~") : FsPath.expanduser home p = p := by
  obtain ⟨abs, segs⟩ := p
  cases abs
  · cases segs with
    | nil => rfl
    | cons s0 rest =>
      have hs0 : s0 ≠ "~" := h s0 (by simp)
      show (if s0 = "~" then (⟨true, home ++ rest⟩ : FsPath)
        else ⟨false, s0 :: rest⟩) = ⟨false, s0 :: rest⟩
      rw [if_neg hs0]
  · exact expanduser_abs home segs

/-- Re-resolving the marker rebuilt by save gives back the stored target
path, when the document path is absolute and the target is an absolute,
clean, tilde-free path.  This is the path round trip underlying the save
then reload analysis. -/
theorem resolveTarget_buildMarker (fs2 : FS) (p t : FsPath)
    (hp : p.absolute = true) (ht : t.absolute = true)
    (hclean : ∀ sg ∈ t.segs, cleanSeg sg = true)
    (htilde : ∀ sg ∈ t.segs, sg ≠ "~") :
    resolveTarget fs2 (some p) (buildMarker (some p) t) = t := by
  obtain ⟨ta, ts⟩ := t
  obtain ⟨pa, ps⟩ := p
  simp only [FsPath.absolute] at hp ht
  subst hp
  subst ht
  simp only [FsPath.segs] at hclean htilde
  have hbm : buildMarker (some ⟨true, ps⟩) ⟨true, ts⟩
      = (match FsPath.relativeTo ⟨true, ts⟩ (FsPath.parent ⟨true, ps⟩) with
         | some rel => markerPre ++ rel.render
         | none => markerPre ++ FsPath.render ⟨true, ts⟩) := by
    unfold buildMarker
    rfl
  rw [hbm]
  cases hrel : FsPath.relativeTo ⟨true, ts⟩ (FsPath.parent ⟨true, ps⟩) with
  | some rel =>
    have hrel2 : rel = ⟨false, ts.drop ps.dropLast.length⟩ := by
      unfold FsPath.relativeTo at hrel
      by_cases hcond : ((⟨true, ts⟩ : FsPath).absolute
          = (FsPath.parent ⟨true, ps⟩).absolute
          && isPreL (FsPath.parent ⟨true, ps⟩).segs
              (⟨true, ts⟩ : FsPath).segs) = true
      · rw [if_pos hcond] at hrel
        simp at hrel
        exact hrel.symm
      · rw [if_neg hcond] at hrel
        exact absurd hrel (by simp)
    have hpre : isPreL ps.dropLast ts = true := by
      unfold FsPath.relativeTo at hrel
      by_cases hcond : ((⟨true, ts⟩ : FsPath).absolute
          = (FsPath.parent ⟨true, ps⟩).absolute
          && isPreL (FsPath.parent ⟨true, ps⟩).segs
              (⟨true, ts⟩ : FsPath).segs) = true
      · simp only [Bool.and_eq_true] at hcond
        exact hcond.2
      · rw [if_neg hcond] at hrel
        exact absurd hrel (by simp)
    subst hrel2
    show resolveTarget fs2 (some ⟨true, ps⟩)
        (markerPre ++ FsPath.render ⟨false, ts.drop ps.dropLast.length⟩)
      = (⟨true, ts⟩ : FsPath)
    unfold resolveTarget
    rw [subMarker_pre_append]
    rw [parsePath_render_rel (ts.drop ps.dropLast.length)
      (fun sg hsg => hclean sg (List.drop_subset _ _ hsg))]
    rw [expanduser_id fs2.home ⟨false, ts.drop ps.dropLast.length⟩
      (fun sg hsg => htilde sg (List.drop_subset _ _ hsg))]
    show (if ((⟨false, ts.drop ps.dropLast.length⟩ : FsPath).absolute = true)
        then (⟨false, ts.drop ps.dropLast.length⟩ : FsPath)
        else FsPath.join (FsPath.parent ⟨true, ps⟩)
          ⟨false, ts.drop ps.dropLast.length⟩) = ⟨true, ts⟩
    rw [if_neg (by simp)]
    unfold FsPath.join
    rw [if_neg (by simp)]
    rw [FsPath.mk.injEq]
    exact ⟨rfl, isPreL_append_drop ps.dropLast ts hpre⟩
  | none =>
    show resolveTarget fs2 (some ⟨true, ps⟩)
        (markerPre ++ FsPath.render ⟨true, ts⟩) = (⟨true, ts⟩ : FsPath)
    unfold resolveTarget
    rw [subMarker_pre_append]
    rw [parsePath_render_abs ts hclean]
    rw [expanduser_abs]
    rfl

/-! ### A positional description of the restore loop of save

The loop in _prepare_data_for_save applies one leaf update per
reverse-mapping entry to the save-time copy.  For incomparable, unique
entry paths this fold is the same as a single walk that replaces the value
at every mapped position by its rebuilt marker; restoreSpecD/V is that
walk, and the lemmas below prove the equivalence. -/

/-- The navigation of one restore iteration succeeds on this path. -/
def navOkD : Doc → List String → Bool
  | _, [] => false
  | d, [k] => (lookupG d k).isSome
  | d, k :: k2 :: ks =>
    match lookupG d k with
    | some (.vDict sub) => navOkD sub (k2 :: ks)
    | _ => false

mutual
def restoreSpecD (cp : Option FsPath) (ms : List (List String × FsPath)) :
    Doc → List String → Doc
  | [], _ => []
  | (k, v) :: rest, kp =>
    (k, restoreSpecV cp ms v (kp ++ [k])) :: restoreSpecD cp ms rest kp

def restoreSpecV (cp : Option FsPath) (ms : List (List String × FsPath)) :
    Value → List String → Value
  | .vDict d, kp =>
    match lookupG ms kp with
    | some t => .vStr (buildMarker cp t)
    | none => .vDict (restoreSpecD cp ms d kp)
  | v, kp =>
    match lookupG ms kp with
    | some t => .vStr (buildMarker cp t)
    | none => v
end

theorem lookupG_append {κ α : Type} [DecidableEq κ] :
    ∀ (a b : List (κ × α)) (k : κ),
    lookupG (a ++ b) k
      = (match lookupG a k with
         | some v => some v
         | none => lookupG b k) := by
  intro a b k
  induction a with
  | nil => rfl
  | cons hd tl ih =>
    by_cases hk : hd.1 = k
    · obtain ⟨k', v'⟩ := hd
      simp_all [lookupG]
    · obtain ⟨k', v'⟩ := hd
      simp_all [lookupG]

theorem isPreL_self_append : ∀ (a b : List String), isPreL a (a ++ b) = true := by
  intro a b
  induction a with
  | nil => rfl
  | cons x xs ih => simp [isPreL, ih]

/-- restoreSpec only reads the mapping at positions below its argument, so
mappings that agree there are interchangeable. -/
theorem restoreSpec_congr_aux (cp : Option FsPath)
    (ms ms' : List (List String × FsPath)) :
    ∀ n : Nat,
      (∀ (v : Value), sizeOf v ≤ n → ∀ kp,
        (∀ suf, lookupG ms' (kp ++ suf) = lookupG ms (kp ++ suf)) →
        restoreSpecV cp ms' v kp = restoreSpecV cp ms v kp) ∧
      (∀ (d : Doc), sizeOf d ≤ n → ∀ kp,
        (∀ k0 suf, k0 ∈ d.map (fun e => e.1) →
          lookupG ms' (kp ++ k0 :: suf) = lookupG ms (kp ++ k0 :: suf)) →
        restoreSpecD cp ms' d kp = restoreSpecD cp ms d kp) := by
  intro n
  induction n with
  | zero =>
    constructor
    · intro v hv
      exfalso
      cases v <;> simp at hv
    · intro d hd
      exfalso
      cases d <;> simp at hd
  | succ n ih =>
    constructor
    · intro v hv kp hag
      have h0 : lookupG ms' kp = lookupG ms kp := by
        have := hag []
        simpa using this
      cases v with
      | vDict d =>
        unfold restoreSpecV
        rw [h0]
        cases hl : lookupG ms kp with
        | some t => rfl
        | none =>
          rw [ih.2 d (by simp at hv; omega) kp
            (fun k0 suf _ => by
              have := hag (k0 :: suf)
              simpa using this)]
      | vStr s =>
        unfold restoreSpecV
        rw [h0]
      | vInt m =>
        unfold restoreSpecV
        rw [h0]
      | vBool b =>
        unfold restoreSpecV
        rw [h0]
      | vArr l =>
        unfold restoreSpecV
        rw [h0]
    · intro d hd kp hag
      cases d with
      | nil => rfl
      | cons hd0 tl =>
        obtain ⟨k', v'⟩ := hd0
        show (k', restoreSpecV cp ms' v' (kp ++ [k'])) :: restoreSpecD cp ms' tl kp
          = (k', restoreSpecV cp ms v' (kp ++ [k'])) :: restoreSpecD cp ms tl kp
        have h1 : restoreSpecV cp ms' v' (kp ++ [k'])
            = restoreSpecV cp ms v' (kp ++ [k']) := by
          apply ih.1 v' (by simp at hd; omega)
          intro suf
          have := hag k' suf (by simp)
          simpa using this
        have h2 : restoreSpecD cp ms' tl kp = restoreSpecD cp ms tl kp := by
          apply ih.2 tl (by simp at hd; omega)
          intro k0 suf hk0
          exact hag k0 suf (by simp; right; simpa using hk0)
        rw [h1, h2]

/-- restoreSpec with an empty mapping is the identity. -/
theorem restoreSpec_empty_aux (cp : Option FsPath) :
    ∀ n : Nat,
      (∀ (v : Value), sizeOf v ≤ n → ∀ kp, restoreSpecV cp [] v kp = v) ∧
      (∀ (d : Doc), sizeOf d ≤ n → ∀ kp, restoreSpecD cp [] d kp = d) := by
  intro n
  induction n with
  | zero =>
    constructor
    · intro v hv
      exfalso
      cases v <;> simp at hv
    · intro d hd
      exfalso
      cases d <;> simp at hd
  | succ n ih =>
    constructor
    · intro v hv kp
      cases v with
      | vDict d =>
        show Value.vDict (restoreSpecD cp [] d kp) = Value.vDict d
        rw [ih.2 d (by simp at hv; omega) kp]
      | vStr s => rfl
      | vInt m => rfl
      | vBool b => rfl
      | vArr l => rfl
    · intro d hd kp
      cases d with
      | nil => rfl
      | cons hd0 tl =>
        obtain ⟨k', v'⟩ := hd0
        show (k', restoreSpecV cp [] v' (kp ++ [k'])) :: restoreSpecD cp [] tl kp
          = (k', v') :: tl
        rw [ih.1 v' (by simp at hd; omega), ih.2 tl (by simp at hd; omega)]

theorem lookupG_restoreSpecD (cp : Option FsPath)
    (ms : List (List String × FsPath)) (k : String) :
    ∀ (d : Doc) (kp : List String),
    lookupG (restoreSpecD cp ms d kp) k
      = (lookupG d k).map (fun w => restoreSpecV cp ms w (kp ++ [k])) := by
  intro d
  induction d with
  | nil => intro kp; rfl
  | cons hd tl ih =>
    intro kp
    obtain ⟨k', v'⟩ := hd
    by_cases hk : k' = k
    · subst hk
      simp [restoreSpecD, lookupG]
    · simp [restoreSpecD, lookupG, hk, ih]

theorem keysNodup_of_lookup {d : Doc} {k : String} {v : Value}
    (hnd : keysNodupD d = true) (hl : lookupG d k = some v) :
    keysNodupV v = true := by
  induction d with
  | nil => simp [lookupG] at hl
  | cons hd tl ih =>
    obtain ⟨k', v'⟩ := hd
    simp only [keysNodupD, Bool.and_eq_true] at hnd
    by_cases hk : k' = k
    · simp [lookupG, hk] at hl
      rw [← hl]
      exact hnd.1.2
    · simp [lookupG, hk] at hl
      exact ih hnd.2 hl

/-- Inserting the replacement value for one mapped path into the walked
copy is the walk under the mapping extended at that path. -/
theorem insertG_restoreSpecD_set (cp : Option FsPath)
    (ms ms' : List (List String × FsPath)) (k : String) (w : Value) :
    ∀ (d : Doc) (kp : List String),
      keysNodupD d = true →
      (lookupG d k).isSome = true →
      (∀ k0 suf, k0 ≠ k →
        lookupG ms' (kp ++ k0 :: suf) = lookupG ms (kp ++ k0 :: suf)) →
      (∀ v0, lookupG d k = some v0 → w = restoreSpecV cp ms' v0 (kp ++ [k])) →
      insertG (restoreSpecD cp ms d kp) k w = restoreSpecD cp ms' d kp := by
  intro d
  induction d with
  | nil =>
    intro kp _ hsome _ _
    simp [lookupG] at hsome
  | cons hd tl ih =>
    intro kp hnd hsome hag hw
    obtain ⟨k', v'⟩ := hd
    simp only [keysNodupD, Bool.and_eq_true] at hnd
    obtain ⟨⟨hall, hndv⟩, hndtl⟩ := hnd
    by_cases hk : k' = k
    · subst hk
      show insertG ((k', restoreSpecV cp ms v' (kp ++ [k']))
            :: restoreSpecD cp ms tl kp) k' w
          = (k', restoreSpecV cp ms' v' (kp ++ [k']))
            :: restoreSpecD cp ms' tl kp
      rw [show insertG ((k', restoreSpecV cp ms v' (kp ++ [k']))
            :: restoreSpecD cp ms tl kp) k' w
          = (k', w) :: restoreSpecD cp ms tl kp from by simp [insertG]]
      have hw' : w = restoreSpecV cp ms' v' (kp ++ [k']) :=
        hw v' (by simp [lookupG])
      have htl : restoreSpecD cp ms' tl kp = restoreSpecD cp ms tl kp := by
        apply (restoreSpec_congr_aux cp ms ms' (sizeOf tl)).2 tl le_rfl kp
        intro k0 suf hk0
        apply hag
        intro hh
        subst hh
        obtain ⟨e, he, hee⟩ := List.mem_map.mp hk0
        have := List.all_eq_true.mp hall e he
        rw [bne_iff_ne] at this
        exact this hee
      rw [hw', htl]
    · show insertG ((k', restoreSpecV cp ms v' (kp ++ [k']))
            :: restoreSpecD cp ms tl kp) k w
          = (k', restoreSpecV cp ms' v' (kp ++ [k']))
            :: restoreSpecD cp ms' tl kp
      rw [show insertG ((k', restoreSpecV cp ms v' (kp ++ [k']))
            :: restoreSpecD cp ms tl kp) k w
          = (k', restoreSpecV cp ms v' (kp ++ [k']))
            :: insertG (restoreSpecD cp ms tl kp) k w from by
        simp [insertG, hk]]
      have hhd : restoreSpecV cp ms v' (kp ++ [k'])
          = restoreSpecV cp ms' v' (kp ++ [k']) := by
        symm
        apply (restoreSpec_congr_aux cp ms ms' (sizeOf v')).1 v' le_rfl
        intro suf
        have := hag k' suf hk
        simpa using this
      have hsome' : (lookupG tl k).isSome = true := by
        simpa [lookupG, hk] using hsome
      have hw2 : ∀ v0, lookupG tl k = some v0 →
          w = restoreSpecV cp ms' v0 (kp ++ [k]) := by
        intro v0 hv0
        exact hw v0 (by simpa [lookupG, hk] using hv0)
      rw [hhd, ih kp hndtl hsome' hag hw2]

/-- Appending one restore iteration to the walked copy extends the walked
mapping by that entry. -/
theorem restoreKeys_spec_snoc (cp : Option FsPath)
    (ms : List (List String × FsPath)) (t : FsPath) :
    ∀ (suf : List String) (d : Doc) (kp : List String),
      navOkD d suf = true →
      keysNodupD d = true →
      (∀ e ∈ ms, isPreL e.1 (kp ++ suf) = false ∧
        isPreL (kp ++ suf) e.1 = false) →
      restoreKeys (restoreSpecD cp ms d kp) suf (buildMarker cp t)
        = restoreSpecD cp (ms ++ [(kp ++ suf, t)]) d kp := by
  intro suf
  induction suf with
  | nil =>
    intro d kp hnav
    simp [navOkD] at hnav
  | cons k rest ih =>
    intro d kp hnav hnd hinc
    have hmspos : ∀ pos : List String, isPreL pos (kp ++ k :: rest) = true →
        lookupG ms pos = none := by
      intro pos hpos
      apply lookupG_eq_none
      intro e he hee
      have h1 := (hinc e he).1
      rw [hee, hpos] at h1
      exact absurd h1 (by simp)
    cases rest with
    | nil =>
      have hsome : (lookupG d k).isSome = true := by
        simpa [navOkD] using hnav
      obtain ⟨v0, hv0⟩ := Option.isSome_iff_exists.mp hsome
      unfold restoreKeys
      rw [lookupG_restoreSpecD, hv0]
      rw [show Option.map (fun w => restoreSpecV cp ms w (kp ++ [k])) (some v0)
          = some (restoreSpecV cp ms v0 (kp ++ [k])) from rfl]
      rw [if_pos (by simp)]
      apply insertG_restoreSpecD_set
      · exact hnd
      · simp [hv0]
      · intro k0 suf hk0
        rw [lookupG_append]
        cases hl : lookupG ms (kp ++ k0 :: suf) with
        | some v => rfl
        | none =>
          show lookupG [(kp ++ [k], t)] (kp ++ k0 :: suf) = none
          apply lookupG_eq_none
          intro e he hee
          simp only [List.mem_singleton] at he
          subst he
          simp only at hee
          have h2 := List.append_cancel_left hee
          simp at h2
          exact hk0 h2.1.symm
      · intro v1 _
        have hq : lookupG (ms ++ [(kp ++ [k], t)]) (kp ++ [k]) = some t := by
          rw [lookupG_append]
          rw [hmspos (kp ++ [k])
            (by simpa using isPreL_self_append (kp ++ [k]) [])]
          simp [lookupG]
        cases v1 <;> simp [restoreSpecV, hq]
    | cons k2 ks =>
      have hnav0 : ∃ sub, lookupG d k = some (.vDict sub)
          ∧ navOkD sub (k2 :: ks) = true := by
        unfold navOkD at hnav
        cases hdk : lookupG d k with
        | none => rw [hdk] at hnav; simp at hnav
        | some v0 =>
          cases v0 with
          | vDict sub =>
            rw [hdk] at hnav
            exact ⟨sub, rfl, hnav⟩
          | vStr s => rw [hdk] at hnav; simp at hnav
          | vInt n => rw [hdk] at hnav; simp at hnav
          | vBool b => rw [hdk] at hnav; simp at hnav
          | vArr l => rw [hdk] at hnav; simp at hnav
      obtain ⟨sub, hdk, hnavsub⟩ := hnav0
      have hpre1 : lookupG ms (kp ++ [k]) = none := by
        apply hmspos
        have := isPreL_self_append (kp ++ [k]) (k2 :: ks)
        simpa [List.append_assoc] using this
      have hvdict : restoreSpecV cp ms (.vDict sub) (kp ++ [k])
          = .vDict (restoreSpecD cp ms sub (kp ++ [k])) := by
        simp [restoreSpecV, hpre1]
      unfold restoreKeys
      rw [lookupG_restoreSpecD, hdk]
      rw [show Option.map (fun w => restoreSpecV cp ms w (kp ++ [k]))
          (some (.vDict sub))
          = some (restoreSpecV cp ms (.vDict sub) (kp ++ [k])) from rfl]
      rw [hvdict]
      show insertG (restoreSpecD cp ms d kp) k
          (.vDict (restoreKeys (restoreSpecD cp ms sub (kp ++ [k]))
            (k2 :: ks) (buildMarker cp t))) = _
      rw [ih sub (kp ++ [k]) hnavsub
        (by
          have := keysNodup_of_lookup hnd hdk
          simpa [keysNodupV] using this)
        (by
          intro e he
          have := hinc e he
          simpa [List.append_assoc] using this)]
      apply insertG_restoreSpecD_set
      · exact hnd
      · simp [hdk]
      · intro k0 suf hk0
        rw [lookupG_append]
        cases hl : lookupG ms (kp ++ k0 :: suf) with
        | some v => rfl
        | none =>
          show lookupG [(kp ++ k :: k2 :: ks, t)] (kp ++ k0 :: suf) = none
          apply lookupG_eq_none
          intro e he hee
          simp only [List.mem_singleton] at he
          subst he
          simp only at hee
          have h2 := List.append_cancel_left hee
          simp at h2
          exact hk0 h2.1.symm
      · intro v1 hv1
        rw [hdk] at hv1
        have hv1' : v1 = .vDict sub := by
          injection hv1 with h1
          exact h1.symm
        subst hv1'
        have hnone : lookupG (ms ++ [(kp ++ k :: k2 :: ks, t)]) (kp ++ [k])
            = none := by
          rw [lookupG_append, hpre1]
          apply lookupG_eq_none
          intro e he hee
          simp only [List.mem_singleton] at he
          subst he
          simp only at hee
          have h2 := List.append_cancel_left hee
          simp at h2
        simp [restoreSpecV, hnone]

/-- The restore fold of _prepare_data_for_save over unique, pairwise
incomparable paths equals the single positional walk. -/
theorem foldl_restoreKeys_spec (cp : Option FsPath) :
    ∀ (ms : List (List String × FsPath)) (d : Doc),
      keysNodupD d = true →
      (∀ e ∈ ms, navOkD d e.1 = true) →
      List.Pairwise (fun a b => isPreL a.1 b.1 = false ∧
        isPreL b.1 a.1 = false) ms →
      ms.foldl (fun sd e => restoreKeys sd e.1 (buildMarker cp e.2)) d
        = restoreSpecD cp ms d [] := by
  intro ms
  induction ms using List.reverseRecOn with
  | nil =>
    intro d hnd _ _
    exact ((restoreSpec_empty_aux cp (sizeOf d)).2 d le_rfl []).symm
  | append_singleton ms0 e ih =>
    intro d hnd hnav hpair
    rw [List.foldl_append]
    simp only [List.foldl_cons, List.foldl_nil]
    rw [ih d hnd
      (fun e' he' => hnav e' (by simp [he']))
      (hpair.sublist (List.sublist_append_left ms0 [e]))]
    have hcross : ∀ e' ∈ ms0, isPreL e'.1 e.1 = false ∧
        isPreL e.1 e'.1 = false := by
      intro e' he'
      have := (List.pairwise_append.mp hpair).2.2
      exact this e' he' e (by simp)
    have hsnoc := restoreKeys_spec_snoc cp ms0 e.2 e.1 d []
      (hnav e (by simp)) hnd
      (by
        intro e' he'
        have := hcross e' he'
        simpa using this)
    simp only [List.nil_append] at hsnoc
    rw [hsnoc]

/-! ### What _save_file_variables leaves on disk -/

theorem resolve_abs (fs : FS) (p : FsPath) (hp : p.absolute = true) :
    fs.resolve p = p := by
  unfold FS.resolve
  rw [if_pos hp]

theorem write_cwd (fs : FS) (p : FsPath) (d : FileData) :
    (fs.write p d).cwd = fs.cwd ∧ (fs.write p d).home = fs.home := ⟨rfl, rfl⟩

theorem lookup_write_self (fs : FS) (p : FsPath) (d : FileData) :
    (fs.write p d).lookup p = some d := by
  unfold FS.write FS.lookup
  rw [show (({ fs with files := insertG fs.files (fs.resolve p) d } : FS)).resolve p
      = fs.resolve p from by unfold FS.resolve; rfl]
  exact lookupG_insertG_self _ _ _

theorem lookup_write_ne (fs : FS) (p q : FsPath) (d : FileData)
    (hp : p.absolute = true) (hq : q.absolute = true) (hne : p ≠ q) :
    (fs.write p d).lookup q = fs.lookup q := by
  unfold FS.write FS.lookup
  rw [show (({ fs with files := insertG fs.files (fs.resolve p) d } : FS)).resolve q
      = fs.resolve q from by unfold FS.resolve; rfl]
  rw [resolve_abs fs p hp, resolve_abs fs q hq]
  exact lookupG_insertG_ne _ _ _ _ hne

theorem saveFileVariables_fold_other (c : Config) :
    ∀ (fm : List (String × FsPath)) (fs : FS) (q : FsPath),
      q.absolute = true →
      (∀ e ∈ fm, e.2.absolute = true ∧ e.2 ≠ q) →
      (fm.foldl (fun acc e =>
        match Config.get c e.1 with
        | some v => acc.write e.2 (.text (pyStr v))
        | none => acc) fs).lookup q = fs.lookup q := by
  intro fm
  induction fm with
  | nil => intro fs q _ _; rfl
  | cons e rest ih =>
    intro fs q hq hall
    simp only [List.foldl_cons]
    have he := hall e (by simp)
    cases hg : Config.get c e.1 with
    | none =>
      exact ih fs q hq (fun e' he' => hall e' (by simp [he']))
    | some v =>
      rw [ih _ q hq (fun e' he' => hall e' (by simp [he']))]
      exact lookup_write_ne fs e.2 q _ he.1 hq he.2

theorem saveFileVariables_fold_target (c : Config) :
    ∀ (fm : List (String × FsPath)) (fs : FS) (ck : String) (t : FsPath)
      (v : Value),
      (ck, t) ∈ fm →
      t.absolute = true →
      (∀ e ∈ fm, e.2.absolute = true) →
      (∀ e ∈ fm, e.1 ≠ ck → e.2 ≠ t) →
      (fm.map (fun e => e.1)).Nodup →
      Config.get c ck = some v →
      (fm.foldl (fun acc e =>
        match Config.get c e.1 with
        | some v => acc.write e.2 (.text (pyStr v))
        | none => acc) fs).lookup t = some (.text (pyStr v)) := by
  intro fm
  induction fm with
  | nil => intro fs ck t v hmem; simp at hmem
  | cons e rest ih =>
    intro fs ck t v hmem habs hallabs hother hnd hget
    simp only [List.foldl_cons]
    rw [List.map_cons, List.nodup_cons] at hnd
    by_cases hk : e.1 = ck
    · have he : e = (ck, t) := by
        rcases List.mem_cons.mp hmem with h1 | h1
        · exact h1.symm
        · exfalso
          apply hnd.1
          rw [hk]
          exact List.mem_map.mpr ⟨(ck, t), h1, rfl⟩
      subst he
      rw [show (match c.get (ck, t).1 with
          | some v => fs.write (ck, t).2 (FileData.text (pyStr v))
          | none => fs)
        = fs.write t (FileData.text (pyStr v)) from by
        show (match c.get ck with
          | some v => fs.write t (FileData.text (pyStr v))
          | none => fs) = _
        rw [hget]]
      rw [saveFileVariables_fold_other c rest _ t habs
        (fun e' he' => ⟨hallabs e' (by simp [he']),
          hother e' (by simp [he']) (by
            intro hh
            apply hnd.1
            rw [← hh]
            exact List.mem_map.mpr ⟨e', he', rfl⟩)⟩)]
      exact lookup_write_self fs t _
    · have hmem' : (ck, t) ∈ rest := by
        rcases List.mem_cons.mp hmem with h1 | h1
        · exfalso
          apply hk
          rw [← h1]
        · exact h1
      cases hg : Config.get c e.1 with
      | none =>
        exact ih fs ck t v hmem' habs
          (fun e' he' => hallabs e' (by simp [he']))
          (fun e' he' => hother e' (by simp [he'])) hnd.2 hget
      | some w =>
        exact ih _ ck t v hmem' habs
          (fun e' he' => hallabs e' (by simp [he']))
          (fun e' he' => hother e' (by simp [he'])) hnd.2 hget

/-! ### Reloading the saved document -/

/-- Processing the save-time copy (live tree with markers restored at the
mapped positions) gives back the live tree, provided each restored marker
resolves to a file holding the live value's text, and no other string leaf
looks like a marker. -/
theorem reload_restore_aux (fs2 : FS) (p : FsPath) (cp : Option FsPath)
    (ms : List (List String × FsPath)) :
    ∀ n : Nat,
      (∀ (v : Value), sizeOf v ≤ n → keysNodupV v = true → ∀ kp,
        (∀ suf t, lookupG ms (kp ++ suf) = some t →
          ∃ w, getPath v suf = some w ∧
            loadValue fs2 (some p) (.vStr (buildMarker cp t)) (kp ++ suf) = w) →
        (∀ suf s, lookupG ms (kp ++ suf) = none →
          getPath v suf = some (.vStr s) → isMarker s = false) →
        loadValue fs2 (some p) (restoreSpecV cp ms v kp) kp = v) ∧
      (∀ (d : Doc), sizeOf d ≤ n → keysNodupD d = true → ∀ kp,
        (∀ k0 suf t, k0 ∈ d.map (fun e => e.1) →
          lookupG ms (kp ++ k0 :: suf) = some t →
          ∃ w, getPath (.vDict d) (k0 :: suf) = some w ∧
            loadValue fs2 (some p) (.vStr (buildMarker cp t)) (kp ++ k0 :: suf) = w) →
        (∀ k0 suf s, k0 ∈ d.map (fun e => e.1) →
          lookupG ms (kp ++ k0 :: suf) = none →
          getPath (.vDict d) (k0 :: suf) = some (.vStr s) → isMarker s = false) →
        loadEntries fs2 (some p) (restoreSpecD cp ms d kp) kp = d) := by
  intro n
  induction n with
  | zero =>
    constructor
    · intro v hv
      exfalso
      cases v <;> simp at hv
    · intro d hd
      exfalso
      cases d <;> simp at hd
  | succ n ih =>
    constructor
    · intro v hv hnd kp hb1 hb2
      cases hkp : lookupG ms kp with
      | some t =>
        have hrs : restoreSpecV cp ms v kp = .vStr (buildMarker cp t) := by
          cases v <;> simp [restoreSpecV, hkp]
        rw [hrs]
        obtain ⟨w, hw1, hw2⟩ := hb1 [] t (by simpa using hkp)
        have hwv : w = v := by
          have := hw1
          simp [getPath] at this
          exact this.symm
        subst hwv
        simpa using hw2
      | none =>
        cases v with
        | vDict d =>
          have hrs : restoreSpecV cp ms (.vDict d) kp
              = .vDict (restoreSpecD cp ms d kp) := by
            simp [restoreSpecV, hkp]
          rw [hrs]
          show Value.vDict (loadEntries fs2 (some p) (restoreSpecD cp ms d kp) kp)
            = Value.vDict d
          rw [ih.2 d (by simp at hv; omega) (by simpa [keysNodupV] using hnd) kp
            (fun k0 suf t _ hl => hb1 (k0 :: suf) t hl)
            (fun k0 suf s _ hl hg => hb2 (k0 :: suf) s hl hg)]
        | vStr s =>
          have hm : isMarker s = false :=
            hb2 [] s (by simpa using hkp) (by simp [getPath])
          simp [restoreSpecV, hkp, loadValue, hm]
        | vInt m => simp [restoreSpecV, hkp, loadValue]
        | vBool b => simp [restoreSpecV, hkp, loadValue]
        | vArr l => simp [restoreSpecV, hkp, loadValue]
    · intro d hd hnd kp hb1 hb2
      cases d with
      | nil => rfl
      | cons hd0 tl =>
        obtain ⟨k, v⟩ := hd0
        simp only [keysNodupD, Bool.and_eq_true] at hnd
        obtain ⟨⟨hall, hndv⟩, hndtl⟩ := hnd
        show (k, loadValue fs2 (some p) (restoreSpecV cp ms v (kp ++ [k]))
              (kp ++ [k]))
            :: loadEntries fs2 (some p) (restoreSpecD cp ms tl kp) kp
          = (k, v) :: tl
        have hhead : loadValue fs2 (some p)
            (restoreSpecV cp ms v (kp ++ [k])) (kp ++ [k]) = v := by
          apply ih.1 v (by simp at hd; omega) hndv (kp ++ [k])
          · intro suf t hl
            obtain ⟨w, hw1, hw2⟩ := hb1 k suf t (by simp)
              (by simpa [List.append_assoc] using hl)
            refine ⟨w, ?_, by simpa [List.append_assoc] using hw2⟩
            simpa [getPath, lookupG] using hw1
          · intro suf s hl hg
            apply hb2 k suf s (by simp)
              (by simpa [List.append_assoc] using hl)
            simpa [getPath, lookupG] using hg
        have htail : loadEntries fs2 (some p) (restoreSpecD cp ms tl kp) kp
            = tl := by
          apply ih.2 tl (by simp at hd; omega) hndtl kp
          · intro k0 suf t hk0 hl
            have hk0k : k ≠ k0 := by
              intro hh
              obtain ⟨e, he, hee⟩ := List.mem_map.mp hk0
              have := List.all_eq_true.mp hall e he
              rw [bne_iff_ne] at this
              exact this (hee.trans hh.symm)
            obtain ⟨w, hw1, hw2⟩ := hb1 k0 suf t
              (by
                rw [List.map_cons]
                exact List.mem_cons_of_mem _ hk0) hl
            refine ⟨w, ?_, hw2⟩
            rw [show getPath (Value.vDict ((k, v) :: tl)) (k0 :: suf)
                = getPath (Value.vDict tl) (k0 :: suf) from by
              simp [getPath, lookupG, hk0k]] at hw1
            exact hw1
          · intro k0 suf s hk0 hl hg
            have hk0k : k ≠ k0 := by
              intro hh
              obtain ⟨e, he, hee⟩ := List.mem_map.mp hk0
              have := List.all_eq_true.mp hall e he
              rw [bne_iff_ne] at this
              exact this (hee.trans hh.symm)
            apply hb2 k0 suf s
              (by
                rw [List.map_cons]
                exact List.mem_cons_of_mem _ hk0) hl
            rw [show getPath (Value.vDict ((k, v) :: tl)) (k0 :: suf)
                = getPath (Value.vDict tl) (k0 :: suf) from by
              simp [getPath, lookupG, hk0k]]
            exact hg
        rw [hhead, htail]

/-! ### Small glue lemmas for the round-trip assemblies -/

theorem all_map' {α β : Type} (p : β → Bool) (f : α → β) :
    ∀ l : List α, (l.map f).all p = l.all (fun a => p (f a)) := by
  intro l
  induction l with
  | nil => rfl
  | cons a as ih => simp [ih]

theorem getPath_append (b : List String) :
    ∀ (a : List String) (v : Value),
    getPath v (a ++ b) = (getPath v a).bind (fun w => getPath w b) := by
  intro a
  induction a with
  | nil => intro v; simp [getPath]
  | cons k rest ih =>
    intro v
    cases v with
    | vDict d =>
      cases hl : lookupG d k with
      | none => simp [getPath, hl]
      | some v' =>
        rw [show getPath (Value.vDict d) ((k :: rest) ++ b)
            = getPath v' (rest ++ b) from by
          rw [List.cons_append]
          simp [getPath, hl]]
        rw [ih v']
        simp [getPath, hl]
    | vStr s => simp [getPath]
    | vInt n => simp [getPath]
    | vBool bb => simp [getPath]
    | vArr l => simp [getPath]

theorem navOk_of_getPath :
    ∀ (q : List String) (d : Doc) (w : Value),
      getPath (.vDict d) q = some w → q ≠ [] → navOkD d q = true := by
  intro q
  induction q with
  | nil => intro d w _ h; exact absurd rfl h
  | cons k rest ih =>
    intro d w hg _
    cases hl : lookupG d k with
    | none => simp [getPath, hl] at hg
    | some v =>
      cases rest with
      | nil => simp [navOkD, hl]
      | cons k2 ks =>
        simp only [getPath, hl] at hg
        cases v with
        | vDict sub =>
          simp only [navOkD, hl]
          exact ih sub w hg (by simp)
        | vStr s => simp [getPath] at hg
        | vInt n => simp [getPath] at hg
        | vBool b => simp [getPath] at hg
        | vArr l => simp [getPath] at hg

theorem loadEntries_keys (fs : FS) (cp : Option FsPath) :
    ∀ (d : Doc) (kp : List String),
    (loadEntries fs cp d kp).map (fun e => e.1) = d.map (fun e => e.1) := by
  intro d
  induction d with
  | nil => intro kp; rfl
  | cons hd tl ih =>
    intro kp
    obtain ⟨k, v⟩ := hd
    simp [loadEntries, ih]

theorem keysNodup_load_aux (fs : FS) (cp : Option FsPath) :
    ∀ n : Nat,
      (∀ (v : Value), sizeOf v ≤ n → keysNodupV v = true → ∀ kp,
        keysNodupV (loadValue fs cp v kp) = true) ∧
      (∀ (d : Doc), sizeOf d ≤ n → keysNodupD d = true → ∀ kp,
        keysNodupD (loadEntries fs cp d kp) = true) := by
  intro n
  induction n with
  | zero =>
    constructor
    · intro v hv
      exfalso
      cases v <;> simp at hv
    · intro d hd
      exfalso
      cases d <;> simp at hd
  | succ n ih =>
    constructor
    · intro v hv hnd kp
      cases v with
      | vDict d =>
        show keysNodupV (.vDict (loadEntries fs cp d kp)) = true
        simp only [keysNodupV]
        exact ih.2 d (by simp at hv; omega) (by simpa [keysNodupV] using hnd) kp
      | vStr s =>
        show keysNodupV (loadValue fs cp (.vStr s) kp) = true
        cases hm : isMarker s
        · simp [loadValue, hm, keysNodupV]
        · simp only [loadValue, hm]
          cases fs.lookup (resolveTarget fs cp s) with
          | none => simp [keysNodupV]
          | some fd => cases fd <;> simp [keysNodupV]
      | vInt m => simp [loadValue, keysNodupV]
      | vBool b => simp [loadValue, keysNodupV]
      | vArr l => simp [loadValue, keysNodupV]
    · intro d hd hnd kp
      cases d with
      | nil => simp [loadEntries, keysNodupD]
      | cons hd0 tl =>
        obtain ⟨k, v⟩ := hd0
        simp only [keysNodupD, Bool.and_eq_true] at hnd
        obtain ⟨⟨hall, hndv⟩, hndtl⟩ := hnd
        show keysNodupD ((k, loadValue fs cp v (kp ++ [k]))
          :: loadEntries fs cp tl kp) = true
        simp only [keysNodupD, Bool.and_eq_true]
        refine ⟨⟨?_, ih.1 v (by simp at hd; omega) hndv _⟩,
          ih.2 tl (by simp at hd; omega) hndtl kp⟩
        have h1 : ((loadEntries fs cp tl kp).map (fun e => e.1)).all
            (fun x => x != k) = true := by
          rw [loadEntries_keys, all_map']
          exact hall
        rw [all_map'] at h1
        exact h1

theorem buildMarker_isMarker (cp : Option FsPath) (t : FsPath) :
    isMarker (buildMarker cp t) = true := by
  unfold buildMarker
  cases cp with
  | none => exact isMarker_pre_append _
  | some c =>
    show isMarker
        (if t.absolute = true then
          match FsPath.relativeTo t c.parent with
          | some rel => markerPre ++ rel.render
          | none => markerPre ++ t.render
        else markerPre ++ t.render) = true
    by_cases ht : t.absolute = true
    · rw [if_pos ht]
      cases FsPath.relativeTo t c.parent <;> exact isMarker_pre_append _
    · rw [if_neg ht]
      exact isMarker_pre_append _

theorem loadValue_vStr_kp (fs : FS) (cp : Option FsPath) (s : String)
    (kp kp' : List String) :
    loadValue fs cp (.vStr s) kp = loadValue fs cp (.vStr s) kp' := by
  cases hm : isMarker s
  · simp [loadValue, hm]
  · simp only [loadValue, hm]

theorem foldl_congr_mem {α β : Type} :
    ∀ (l : List β) (f g : α → β → α) (a : α),
      (∀ a' e, e ∈ l → f a' e = g a' e) →
      l.foldl f a = l.foldl g a := by
  intro l
  induction l with
  | nil => intro f g a _; rfl
  | cons e rest ih =>
    intro f g a h
    simp only [List.foldl_cons]
    rw [h a e (by simp)]
    exact ih f g _ (fun a' e' he' => h a' e' (by simp [he']))

theorem collect_mem_of_entry (fs : FS) (cp : Option FsPath)
    {k : String} {v : Value}
    {e : List String × String × FsPath} :
    ∀ (d : Doc) (kp : List String), (k, v) ∈ d →
      e ∈ collectValue fs cp v (kp ++ [k]) →
      e ∈ collectEntries fs cp d kp := by
  intro d
  induction d with
  | nil => intro kp h; simp at h
  | cons hd tl ih =>
    intro kp hmem hcv
    rcases List.mem_cons.mp hmem with h1 | h1
    · rw [← h1]
      show e ∈ collectValue fs cp v (kp ++ [k]) ++ collectEntries fs cp tl kp
      exact List.mem_append.mpr (Or.inl hcv)
    · obtain ⟨k', v'⟩ := hd
      show e ∈ collectValue fs cp v' (kp ++ [k']) ++ collectEntries fs cp tl kp
      exact List.mem_append.mpr (Or.inr (ih kp h1 hcv))

/-- Every marker-string leaf of the raw tree is collected by the walk. -/
theorem collect_complete (fs : FS) (cp : Option FsPath) :
    ∀ (q : List String) (d : Doc) (kp : List String) (s : String),
      getPath (.vDict d) q = some (.vStr s) → isMarker s = true →
      (kp ++ q, s, resolveTarget fs cp s) ∈ collectEntries fs cp d kp := by
  intro q
  induction q with
  | nil =>
    intro d kp s hg
    simp [getPath] at hg
  | cons k rest ih =>
    intro d kp s hg hm
    cases hl : lookupG d k with
    | none => simp [getPath, hl] at hg
    | some v =>
      have hmem := mem_of_lookupG hl
      cases rest with
      | nil =>
        simp only [getPath, hl] at hg
        have hv : v = .vStr s := by
          cases v <;> simp [getPath] at hg
          simp [hg]
        subst hv
        have : (kp ++ [k], s, resolveTarget fs cp s)
            ∈ collectValue fs cp (.vStr s) (kp ++ [k]) := by
          simp [collectValue, hm]
        exact collect_mem_of_entry fs cp d kp hmem this
      | cons k2 ks =>
        simp only [getPath, hl] at hg
        cases v with
        | vDict sub =>
          have hrec := ih sub (kp ++ [k]) s hg hm
          have : (kp ++ k :: k2 :: ks, s, resolveTarget fs cp s)
              ∈ collectEntries fs cp sub (kp ++ [k]) := by
            simpa [List.append_assoc] using hrec
          exact collect_mem_of_entry fs cp d kp hmem (by simpa [collectValue] using this)
        | vStr s' => simp [getPath] at hg
        | vInt n => simp [getPath] at hg
        | vBool b => simp [getPath] at hg
        | vArr l => simp [getPath] at hg

/-- The saved copy holds the rebuilt marker at a mapped path (positions
above the path carrying no mapping of their own). -/
theorem getPath_restoreSpecD_at (cp : Option FsPath)
    (ms : List (List String × FsPath)) :
    ∀ (q : List String) (d : Doc) (kp : List String) (t : FsPath),
      q ≠ [] →
      lookupG ms (kp ++ q) = some t →
      (∀ e ∈ ms, e.1 = kp ++ q ∨ isPreL e.1 (kp ++ q) = false) →
      (getPath (.vDict d) q).isSome = true →
      getPath (.vDict (restoreSpecD cp ms d kp)) q
        = some (.vStr (buildMarker cp t)) := by
  intro q
  induction q with
  | nil => intro d kp t h; exact absurd rfl h
  | cons k rest ih =>
    intro d kp t _ hlk hup hsome
    cases hl : lookupG d k with
    | none => simp [getPath, hl] at hsome
    | some v =>
      show (match lookupG (restoreSpecD cp ms d kp) k with
            | some v' => getPath v' rest
            | none => none) = some (.vStr (buildMarker cp t))
      rw [lookupG_restoreSpecD, hl]
      show getPath (restoreSpecV cp ms v (kp ++ [k])) rest
        = some (.vStr (buildMarker cp t))
      cases rest with
      | nil =>
        have hlk' : lookupG ms (kp ++ [k]) = some t := by simpa using hlk
        have : restoreSpecV cp ms v (kp ++ [k]) = .vStr (buildMarker cp t) := by
          cases v <;> simp [restoreSpecV, hlk']
        rw [this]
        rfl
      | cons k2 ks =>
        have hnone : lookupG ms (kp ++ [k]) = none := by
          apply lookupG_eq_none
          intro e he hee
          rcases hup e he with h1 | h1
          · rw [hee] at h1
            have := List.append_cancel_left h1
            simp at this
          · rw [hee] at h1
            rw [show kp ++ k :: k2 :: ks = (kp ++ [k]) ++ k2 :: ks from by
              simp [List.append_assoc]] at h1
            rw [isPreL_self_append] at h1
            simp at h1
        simp only [getPath, hl] at hsome
        cases v with
        | vDict sub =>
          have hrs : restoreSpecV cp ms (.vDict sub) (kp ++ [k])
              = .vDict (restoreSpecD cp ms sub (kp ++ [k])) := by
            simp [restoreSpecV, hnone]
          rw [hrs]
          apply ih sub (kp ++ [k]) t (by simp)
            (by simpa [List.append_assoc] using hlk)
            (by
              intro e he
              rcases hup e he with h1 | h1
              · left
                rw [h1]
                simp [List.append_assoc]
              · right
                rw [show ((kp ++ [k]) ++ k2 :: ks) = kp ++ k :: k2 :: ks from by
                  simp [List.append_assoc]]
                exact h1)
            hsome
        | vStr s => simp [getPath] at hsome
        | vInt n => simp [getPath] at hsome
        | vBool b => simp [getPath] at hsome
        | vArr l => simp [getPath] at hsome

/-! ### C1: the save/load round trip -/

theorem load_data_of_doc (fs : FS) (c : Config) (p : FsPath) (d : Doc)
    (h : fs.lookup p = some (.doc d)) :
    (Config.load fs c p).1._data = loadEntries fs (some p) d [] := by
  simp [Config.load, h]

/-- C1 amended: for a freshly loaded handle saved back to its own (absolute)
document path, reloading the saved file yields get results equal to the
handle's for every dotted path.  The hypotheses are the conditions the
counterexamples force: the document path is absolute; dict keys are unique;
no walked key contains a dot (else the dotted reverse-mapping key is
ambiguous); no two walked positions share a dotted key or a target file;
no target is the document file itself; target paths are clean of "", ".",
"/", "~" segments; and unresolved marker strings carry no surrounding
whitespace (the reload strips what the write-back wrote verbatim). -/
theorem C1_round_trip (fs : FS) (c0 : Config) (p : FsPath) (d0 : Doc)
    (hdoc : fs.lookup p = some (.doc d0))
    (hpabs : p.absolute = true)
    (hnd : keysNodupD d0 = true)
    (hdot : ∀ e ∈ collectEntries fs (some p) d0 [], ∀ sg ∈ e.1, ('.') ∉ sg.data)
    (hjnd : ((collectEntries fs (some p) d0 []).map
      (fun e => pyJoinDot e.1)).Nodup)
    (htsh : ∀ e ∈ collectEntries fs (some p) d0 [], e.2.2.absolute = true ∧
      ∀ sg ∈ e.2.2.segs, cleanSeg sg = true ∧ sg ≠ "~")
    (htd : ∀ e1 ∈ collectEntries fs (some p) d0 [],
      ∀ e2 ∈ collectEntries fs (some p) d0 [],
      pyJoinDot e1.1 ≠ pyJoinDot e2.1 → e1.2.2 ≠ e2.2.2)
    (htp : ∀ e ∈ collectEntries fs (some p) d0 [], e.2.2 ≠ p)
    (htrim : ∀ e ∈ collectEntries fs (some p) d0 [], pyStrip e.2.1 = e.2.1) :
    (Config.save fs (Config.load fs c0 p).1 none).2.2 = .ok () ∧
    ∀ key,
      ((Config.load (Config.save fs (Config.load fs c0 p).1 none).2.1
        (Config.save fs (Config.load fs c0 p).1 none).1 p).1).get key
      = ((Config.load fs c0 p).1).get key := by
  have hc1p : (Config.load fs c0 p).1.config_path = some p := by
    simp [Config.load, hdoc]
  have hc1d : (Config.load fs c0 p).1._data = loadEntries fs (some p) d0 [] := by
    simp [Config.load, hdoc]
  have hc1f : (Config.load fs c0 p).1._file_mappings
      = (collectEntries fs (some p) d0 []).map
          (fun e => (pyJoinDot e.1, e.2.2)) :=
    load_file_mappings fs c0 p d0 hdoc hjnd
  have hentry : ∀ e ∈ collectEntries fs (some p) d0 [],
      e.1 ≠ [] ∧ getPath (.vDict d0) e.1 = some (.vStr e.2.1) ∧
      isMarker e.2.1 = true ∧ e.2.2 = resolveTarget fs (some p) e.2.1 := by
    intro e he
    obtain ⟨q, s, t⟩ := e
    exact collect_at fs (some p) hnd he
  have hlive : ∀ e ∈ collectEntries fs (some p) d0 [], ∃ sl : String,
      getPath (.vDict (loadEntries fs (some p) d0 [])) e.1 = some (.vStr sl) ∧
      pyStrip sl = sl ∧
      loadValue fs (some p) (.vStr e.2.1) e.1 = .vStr sl := by
    intro e he
    obtain ⟨hne, hgp, hmk, htg⟩ := hentry e he
    have hload : getPath (.vDict (loadEntries fs (some p) d0 [])) e.1
        = some (loadValue fs (some p) (.vStr e.2.1) e.1) := by
      have h := getPath_loadValue fs (some p) e.1 (.vDict d0) []
      rw [show loadValue fs (some p) (.vDict d0) []
          = .vDict (loadEntries fs (some p) d0 []) from by simp [loadValue]] at h
      rw [h, hgp]
      simp
    cases hfl : fs.lookup (resolveTarget fs (some p) e.2.1) with
    | some fd =>
      cases fd with
      | text content =>
        refine ⟨pyStrip content, ?_, pyStrip_idem content, ?_⟩
        · rw [hload]
          congr 1
          simp [loadValue, hmk, hfl]
        · simp [loadValue, hmk, hfl]
      | doc dd =>
        refine ⟨e.2.1, ?_, htrim e he, ?_⟩
        · rw [hload]
          congr 1
          simp [loadValue, hmk, hfl]
        · simp [loadValue, hmk, hfl]
    | none =>
      refine ⟨e.2.1, ?_, htrim e he, ?_⟩
      · rw [hload]
        congr 1
        simp [loadValue, hmk, hfl]
      · simp [loadValue, hmk, hfl]
  have hpaircolls : (collectEntries fs (some p) d0 []).Pairwise
      (fun a b => isPreL a.1 b.1 = false ∧ isPreL b.1 a.1 = false) := by
    have h1 : (collectEntries fs (some p) d0 []).Pairwise
        (fun a b => pyJoinDot a.1 ≠ pyJoinDot b.1) := List.pairwise_map.mp hjnd
    apply List.Pairwise.imp_of_mem ?himp h1
    intro a b ha hb hne
    have hpa := (hentry a ha).2.1
    have hpb := (hentry b hb).2.1
    constructor
    · by_contra hcc
      rw [Bool.not_eq_false] at hcc
      have happ := isPreL_append_drop a.1 b.1 hcc
      have hdropne : b.1.drop a.1.length ≠ [] := by
        intro hnil
        apply hne
        rw [show a.1 = b.1 from by rw [← happ, hnil, List.append_nil]]
      have hcomp := getPath_append (b.1.drop a.1.length) a.1 (.vDict d0)
      rw [happ, hpb, hpa] at hcomp
      cases hdp : b.1.drop a.1.length with
      | nil => exact hdropne hdp
      | cons c cs =>
        rw [hdp] at hcomp
        simp [getPath] at hcomp
    · by_contra hcc
      rw [Bool.not_eq_false] at hcc
      have happ := isPreL_append_drop b.1 a.1 hcc
      have hdropne : a.1.drop b.1.length ≠ [] := by
        intro hnil
        apply hne
        rw [show b.1 = a.1 from by rw [← happ, hnil, List.append_nil]]
      have hcomp := getPath_append (a.1.drop b.1.length) b.1 (.vDict d0)
      rw [happ, hpa, hpb] at hcomp
      cases hdp : a.1.drop b.1.length with
      | nil => exact hdropne hdp
      | cons c cs =>
        rw [hdp] at hcomp
        simp [getPath] at hcomp
  have hpairms : ((collectEntries fs (some p) d0 []).map
      (fun e => (e.1, e.2.2))).Pairwise
      (fun a b => isPreL a.1 b.1 = false ∧ isPreL b.1 a.1 = false) :=
    List.pairwise_map.mpr hpaircolls
  have hnd1 : keysNodupD (loadEntries fs (some p) d0 []) = true :=
    (keysNodup_load_aux fs (some p) (sizeOf d0)).2 d0 le_rfl hnd []
  have hnav : ∀ e ∈ (collectEntries fs (some p) d0 []).map
      (fun e => (e.1, e.2.2)),
      navOkD (loadEntries fs (some p) d0 []) e.1 = true := by
    intro e he
    obtain ⟨e0, he0, hee⟩ := List.mem_map.mp he
    obtain ⟨sl, hsl, _, _⟩ := hlive e0 he0
    rw [← hee]
    exact navOk_of_getPath e0.1 _ _ hsl (hentry e0 he0).1
  have hsd : prepareDataForSave (Config.load fs c0 p).1
      = restoreSpecD (some p) ((collectEntries fs (some p) d0 []).map
          (fun e => (e.1, e.2.2))) (loadEntries fs (some p) d0 []) [] := by
    unfold prepareDataForSave
    rw [hc1f, hc1p, hc1d]
    rw [List.foldl_map]
    rw [foldl_congr_mem _ _
      (fun sd e => restoreKeys sd e.1 (buildMarker (some p) e.2.2)) _
      (by
        intro a' e he
        rw [pySplitDot_pyJoinDot e.1 (hentry e he).1 (hdot e he)])]
    rw [show (collectEntries fs (some p) d0 []).foldl
        (fun sd e => restoreKeys sd e.1 (buildMarker (some p) e.2.2))
        (loadEntries fs (some p) d0 [])
      = ((collectEntries fs (some p) d0 []).map (fun e => (e.1, e.2.2))).foldl
        (fun sd e => restoreKeys sd e.1 (buildMarker (some p) e.2))
        (loadEntries fs (some p) d0 []) from by rw [List.foldl_map]]
    exact foldl_restoreKeys_spec (some p) _ _ hnd1 hnav hpairms
  have hsave_eq : Config.save fs (Config.load fs c0 p).1 none
      = ({ (Config.load fs c0 p).1 with config_path := some p },
         (saveFileVariables fs (Config.load fs c0 p).1).write p
           (.doc (prepareDataForSave (Config.load fs c0 p).1)),
         .ok ()) := by
    unfold Config.save
    rw [show (match (none : Option FsPath) with
        | some q => some q
        | none => (Config.load fs c0 p).1.config_path)
      = some p from hc1p]
  have hwb : ∀ e ∈ collectEntries fs (some p) d0 [], ∀ sl : String,
      getPath (.vDict (loadEntries fs (some p) d0 [])) e.1 = some (.vStr sl) →
      ((saveFileVariables fs (Config.load fs c0 p).1).write p
        (.doc (prepareDataForSave (Config.load fs c0 p).1))).lookup e.2.2
      = some (.text sl) := by
    intro e he sl hsl
    rw [lookup_write_ne _ p e.2.2 _ hpabs (htsh e he).1
      (fun hh => htp e he hh.symm)]
    unfold saveFileVariables
    rw [hc1f]
    have := saveFileVariables_fold_target (Config.load fs c0 p).1
      ((collectEntries fs (some p) d0 []).map (fun e => (pyJoinDot e.1, e.2.2)))
      fs (pyJoinDot e.1) e.2.2 (.vStr sl)
      (List.mem_map.mpr ⟨e, he, rfl⟩)
      (htsh e he).1
      (by
        intro e' he'
        obtain ⟨a, ha, haa⟩ := List.mem_map.mp he'
        rw [← haa]
        exact (htsh a ha).1)
      (by
        intro e' he' hne'
        obtain ⟨a, ha, haa⟩ := List.mem_map.mp he'
        rw [← haa]
        rw [← haa] at hne'
        exact htd a ha e he hne')
      (by
        rw [List.map_map]
        simpa [Function.comp] using hjnd)
      (by
        unfold Config.get
        rw [hc1d, pySplitDot_pyJoinDot e.1 (hentry e he).1 (hdot e he)]
        exact hsl)
    rw [show pyStr (.vStr sl) = sl from rfl] at this
    exact this
  have hB : loadEntries ((saveFileVariables fs (Config.load fs c0 p).1).write p
        (.doc (prepareDataForSave (Config.load fs c0 p).1))) (some p)
      (restoreSpecD (some p) ((collectEntries fs (some p) d0 []).map
        (fun e => (e.1, e.2.2))) (loadEntries fs (some p) d0 []) [])
      [] = loadEntries fs (some p) d0 [] := by
    apply (reload_restore_aux _ p (some p) _ (sizeOf (loadEntries fs (some p) d0 []))).2
      _ le_rfl hnd1 []
    · intro k0 suf t _ hlk
      simp only [List.nil_append] at hlk
      have hmem := mem_of_lookupG hlk
      obtain ⟨e0, he0, hee⟩ := List.mem_map.mp hmem
      obtain ⟨sl, hsl, hslfix, hlv⟩ := hlive e0 he0
      have heq1 : e0.1 = k0 :: suf := congrArg Prod.fst hee
      have heq2 : e0.2.2 = t := congrArg Prod.snd hee
      refine ⟨.vStr sl, by rw [← heq1]; exact hsl, ?_⟩
      have hmk2 := buildMarker_isMarker (some p) t
      have hrt : resolveTarget ((saveFileVariables fs (Config.load fs c0 p).1).write p
          (.doc (prepareDataForSave (Config.load fs c0 p).1))) (some p)
          (buildMarker (some p) t) = t := by
        apply resolveTarget_buildMarker _ p t hpabs
        · rw [← heq2]
          exact (htsh e0 he0).1
        · intro sg hsg
          rw [← heq2] at hsg
          exact ((htsh e0 he0).2 sg hsg).1
        · intro sg hsg
          rw [← heq2] at hsg
          exact ((htsh e0 he0).2 sg hsg).2
      have hlook := hwb e0 he0 sl hsl
      rw [heq2] at hlook
      simp [loadValue, hmk2, hrt, hlook, hslfix]
    · intro k0 suf s _ hlk hgp
      simp only [List.nil_append] at hlk
      have h := getPath_loadValue fs (some p) (k0 :: suf) (.vDict d0) []
      rw [show loadValue fs (some p) (.vDict d0) []
          = .vDict (loadEntries fs (some p) d0 []) from by simp [loadValue]] at h
      rw [hgp] at h
      cases hg0 : getPath (.vDict d0) (k0 :: suf) with
      | none =>
        rw [hg0] at h
        simp at h
      | some w0 =>
        rw [hg0] at h
        rw [Option.map_some'] at h
        have hw0 : loadValue fs (some p) w0 (k0 :: suf) = .vStr s :=
          (Option.some.inj h).symm
        cases w0 with
        | vStr s0 =>
          by_cases hm0 : isMarker s0 = true
          · exfalso
            have hcc := collect_complete fs (some p) (k0 :: suf) d0 [] s0 hg0 hm0
            simp only [List.nil_append] at hcc
            have : (k0 :: suf, resolveTarget fs (some p) s0)
                ∈ (collectEntries fs (some p) d0 []).map
                  (fun e => (e.1, e.2.2)) :=
              List.mem_map.mpr ⟨_, hcc, rfl⟩
            exact lookupG_ne_none_of_mem this hlk
          · rw [Bool.not_eq_true] at hm0
            have : loadValue fs (some p) (.vStr s0) (k0 :: suf) = .vStr s0 := by
              simp [loadValue, hm0]
            rw [this] at hw0
            injection hw0 with hss
            rw [← hss]
            exact hm0
        | vDict dd => simp [loadValue] at hw0
        | vInt m =>
          rw [show loadValue fs (some p) (.vInt m) (k0 :: suf) = .vInt m from by
            simp [loadValue]] at hw0
          exact absurd hw0 (by simp)
        | vBool b =>
          rw [show loadValue fs (some p) (.vBool b) (k0 :: suf) = .vBool b from by
            simp [loadValue]] at hw0
          exact absurd hw0 (by simp)
        | vArr l =>
          rw [show loadValue fs (some p) (.vArr l) (k0 :: suf) = .vArr l from by
            simp [loadValue]] at hw0
          exact absurd hw0 (by simp)
  constructor
  · rw [hsave_eq]
  · intro key
    rw [hsave_eq]
    show ((Config.load ((saveFileVariables fs (Config.load fs c0 p).1).write p
        (.doc (prepareDataForSave (Config.load fs c0 p).1)))
        { (Config.load fs c0 p).1 with config_path := some p } p).1).get key = _
    have hrel : ((saveFileVariables fs (Config.load fs c0 p).1).write p
        (.doc (prepareDataForSave (Config.load fs c0 p).1))).lookup p
        = some (.doc (prepareDataForSave (Config.load fs c0 p).1)) :=
      lookup_write_self _ _ _
    unfold Config.get
    rw [load_data_of_doc _ _ p _ hrel]
    rw [hsd] at hB
    rw [hsd, hB, hc1d]

def c1fsR : FS := ⟨["w"], ["h"],
  [(⟨true, ["w", "dir", "app.toml"]⟩, .doc [("k", .vStr "file://a.txt")]),
   (⟨true, ["w", "dir", "a.txt"]⟩, .text "abc")]⟩

/-- Counterexample scenario for the unconditional round trip: the document
is addressed by a path relative to the working directory.  The rebuilt
marker then carries the document-relative prefix a second time, the reload
cannot find the doubled path, and the literal marker string replaces the
file contents. -/
theorem C1_counterexample :
    ((Config.load c1fsR ⟨none, [], []⟩ ⟨false, ["dir", "app.toml"]⟩).1).get "k"
      = some (.vStr "abc") ∧
    (Config.save c1fsR (Config.load c1fsR ⟨none, [], []⟩
        ⟨false, ["dir", "app.toml"]⟩).1 none).2.2 = .ok () ∧
    ((Config.load
        (Config.save c1fsR (Config.load c1fsR ⟨none, [], []⟩
          ⟨false, ["dir", "app.toml"]⟩).1 none).2.1
        (Config.save c1fsR (Config.load c1fsR ⟨none, [], []⟩
          ⟨false, ["dir", "app.toml"]⟩).1 none).1
        ⟨false, ["dir", "app.toml"]⟩).1).get "k"
      = some (.vStr "file://dir/a.txt") ∧
    ("file://dir/a.txt" : String) ≠ "abc" :=
  ⟨rfl, rfl, rfl, by decide⟩

def c1fsW : FS := ⟨["w"], ["h"],
  [(⟨true, ["cfg", "app.toml"]⟩,
    .doc [("secrets", .vDict [("key", .vStr "file://content.txt")])]),
   (⟨true, ["cfg", "content.txt"]⟩, .text "abc")]⟩

/-- Instantiation of the round-trip theorem on a concrete store with an
absolute document path and one marker whose target exists. -/
theorem C1_witness :
    (Config.save c1fsW (Config.load c1fsW ⟨none, [], []⟩
        ⟨true, ["cfg", "app.toml"]⟩).1 none).2.2 = .ok () ∧
    ((Config.load (Config.save c1fsW (Config.load c1fsW ⟨none, [], []⟩
          ⟨true, ["cfg", "app.toml"]⟩).1 none).2.1
        (Config.save c1fsW (Config.load c1fsW ⟨none, [], []⟩
          ⟨true, ["cfg", "app.toml"]⟩).1 none).1
        ⟨true, ["cfg", "app.toml"]⟩).1).get "secrets.key"
      = ((Config.load c1fsW ⟨none, [], []⟩
          ⟨true, ["cfg", "app.toml"]⟩).1).get "secrets.key" := by
  have h := C1_round_trip c1fsW ⟨none, [], []⟩ ⟨true, ["cfg", "app.toml"]⟩
    [("secrets", .vDict [("key", .vStr "file://content.txt")])]
    rfl rfl (by decide) (by decide) (by decide) (by decide) (by decide)
    (by decide) (by decide)
  exact ⟨h.1, h.2 "secrets.key"⟩

/-! ### C2: set on a marker-backed path, then save and reload -/

theorem mem_insertG {κ α : Type} [DecidableEq κ] :
    ∀ (d : List (κ × α)) (k : κ) (v : α) (e : κ × α),
      e ∈ insertG d k v → e ∈ d ∨ e.1 = k := by
  intro d k v
  induction d with
  | nil =>
    intro e he
    simp [insertG] at he
    right
    rw [he]
  | cons hd tl ih =>
    intro e he
    obtain ⟨k', v'⟩ := hd
    by_cases h : k' = k
    · simp [insertG, h] at he
      rcases he with h1 | h1
      · right
        rw [h1]
      · left
        simp [h1]
    · simp only [insertG, if_neg h] at he
      rcases List.mem_cons.mp he with h1 | h1
      · left
        simp [h1]
      · rcases ih e h1 with h2 | h2
        · left
          exact List.mem_cons_of_mem _ h2
        · right
          exact h2

theorem keysNodup_insertG :
    ∀ (d : Doc) (k : String) (v : Value),
      keysNodupD d = true → keysNodupV v = true →
      keysNodupD (insertG d k v) = true := by
  intro d k v
  induction d with
  | nil =>
    intro _ hv
    simp [insertG, keysNodupD, hv]
  | cons hd tl ih =>
    intro hnd hv
    obtain ⟨k', v'⟩ := hd
    simp only [keysNodupD, Bool.and_eq_true] at hnd
    by_cases h : k' = k
    · simp only [insertG, if_pos h]
      simp only [keysNodupD, Bool.and_eq_true]
      refine ⟨⟨?_, hv⟩, hnd.2⟩
      rw [← h]
      exact hnd.1.1
    · simp only [insertG, if_neg h]
      simp only [keysNodupD, Bool.and_eq_true]
      refine ⟨⟨?_, hnd.1.2⟩, ih hnd.2 hv⟩
      rw [List.all_eq_true]
      intro e he
      rcases mem_insertG tl k v e he with h1 | h1
      · exact List.all_eq_true.mp hnd.1.1 e h1
      · rw [bne_iff_ne, h1]
        exact fun hh => h hh.symm

theorem keysNodup_setPath (v : Value) (hv : keysNodupV v = true) :
    ∀ (q : List String) (d : Doc), keysNodupD d = true →
      keysNodupD (setPath d q v) = true := by
  intro q
  induction q with
  | nil =>
    intro d hd
    simpa [setPath] using hd
  | cons k qs ih =>
    intro d hd
    cases qs with
    | nil =>
      rw [show setPath d [k] v = insertG d k v from by simp only [setPath]]
      exact keysNodup_insertG d k v hd hv
    | cons k2 ks =>
      cases hl : lookupG d k with
      | none =>
        rw [show setPath d (k :: k2 :: ks) v
            = insertG d k (.vDict (setPath [] (k2 :: ks) v)) from by
          simp only [setPath]
          rw [hl]]
        exact keysNodup_insertG _ _ _ hd (ih [] rfl)
      | some w =>
        cases w with
        | vDict d' =>
          rw [show setPath d (k :: k2 :: ks) v
              = insertG d k (.vDict (setPath d' (k2 :: ks) v)) from by
            simp only [setPath]
            rw [hl]]
          exact keysNodup_insertG _ _ _ hd
            (ih d' (keysNodup_of_lookup hd hl))
        | vStr s =>
          rw [show setPath d (k :: k2 :: ks) v
              = insertG d k (.vDict (setPath [] (k2 :: ks) v)) from by
            simp only [setPath]
            rw [hl]]
          exact keysNodup_insertG _ _ _ hd (ih [] rfl)
        | vInt n =>
          rw [show setPath d (k :: k2 :: ks) v
              = insertG d k (.vDict (setPath [] (k2 :: ks) v)) from by
            simp only [setPath]
            rw [hl]]
          exact keysNodup_insertG _ _ _ hd (ih [] rfl)
        | vBool b =>
          rw [show setPath d (k :: k2 :: ks) v
              = insertG d k (.vDict (setPath [] (k2 :: ks) v)) from by
            simp only [setPath]
            rw [hl]]
          exact keysNodup_insertG _ _ _ hd (ih [] rfl)
        | vArr l =>
          rw [show setPath d (k :: k2 :: ks) v
              = insertG d k (.vDict (setPath [] (k2 :: ks) v)) from by
            simp only [setPath]
            rw [hl]]
          exact keysNodup_insertG _ _ _ hd (ih [] rfl)

theorem getPath_setPath_other (v : Value) :
    ∀ (q r : List String) (d : Doc),
      isPreL q r = false → isPreL r q = false →
      getPath (.vDict (setPath d q v)) r = getPath (.vDict d) r := by
  intro q
  induction q with
  | nil =>
    intro r d h1 _
    simp [isPreL] at h1
  | cons k qs ih =>
    intro r d h1 h2
    cases r with
    | nil => simp [isPreL] at h2
    | cons k' rs =>
      by_cases hk : k = k'
      · subst hk
        have h1' : isPreL qs rs = false := by simpa [isPreL] using h1
        have h2' : isPreL rs qs = false := by simpa [isPreL] using h2
        cases qs with
        | nil => simp [isPreL] at h1'
        | cons k2 ks =>
          cases rs with
          | nil => simp [isPreL] at h2'
          | cons r2 rs2 =>
            have hself : ∀ (X : Value),
                getPath (.vDict (insertG d k X)) (k :: r2 :: rs2)
                  = getPath X (r2 :: rs2) := by
              intro X
              simp [getPath, lookupG_insertG_self]
            cases hl : lookupG d k with
            | none =>
              rw [show setPath d (k :: k2 :: ks) v
                  = insertG d k (.vDict (setPath [] (k2 :: ks) v)) from by
                simp only [setPath]
                rw [hl]]
              rw [hself _, ih (r2 :: rs2) [] h1' h2']
              simp [getPath, lookupG, hl]
            | some w =>
              cases w with
              | vDict d' =>
                rw [show setPath d (k :: k2 :: ks) v
                    = insertG d k (.vDict (setPath d' (k2 :: ks) v)) from by
                  simp only [setPath]
                  rw [hl]]
                rw [hself _, ih (r2 :: rs2) d' h1' h2']
                simp [getPath, hl]
              | vStr s =>
                rw [show setPath d (k :: k2 :: ks) v
                    = insertG d k (.vDict (setPath [] (k2 :: ks) v)) from by
                  simp only [setPath]
                  rw [hl]]
                rw [hself _, ih (r2 :: rs2) [] h1' h2']
                simp [getPath, lookupG, hl]
              | vInt n =>
                rw [show setPath d (k :: k2 :: ks) v
                    = insertG d k (.vDict (setPath [] (k2 :: ks) v)) from by
                  simp only [setPath]
                  rw [hl]]
                rw [hself _, ih (r2 :: rs2) [] h1' h2']
                simp [getPath, lookupG, hl]
              | vBool b =>
                rw [show setPath d (k :: k2 :: ks) v
                    = insertG d k (.vDict (setPath [] (k2 :: ks) v)) from by
                  simp only [setPath]
                  rw [hl]]
                rw [hself _, ih (r2 :: rs2) [] h1' h2']
                simp [getPath, lookupG, hl]
              | vArr l =>
                rw [show setPath d (k :: k2 :: ks) v
                    = insertG d k (.vDict (setPath [] (k2 :: ks) v)) from by
                  simp only [setPath]
                  rw [hl]]
                rw [hself _, ih (r2 :: rs2) [] h1' h2']
                simp [getPath, lookupG, hl]
      · have hgen : ∀ (X : Value),
            getPath (.vDict (insertG d k X)) (k' :: rs)
              = getPath (.vDict d) (k' :: rs) := by
          intro X
          simp [getPath, lookupG_insertG_ne d k k' X hk]
        cases qs with
        | nil =>
          rw [show setPath d [k] v = insertG d k v from by simp only [setPath]]
          exact hgen v
        | cons k2 ks =>
          cases hl : lookupG d k with
          | none =>
            rw [show setPath d (k :: k2 :: ks) v
                = insertG d k (.vDict (setPath [] (k2 :: ks) v)) from by
              simp only [setPath]
              rw [hl]]
            exact hgen _
          | some w =>
            cases w with
            | vDict d' =>
              rw [show setPath d (k :: k2 :: ks) v
                  = insertG d k (.vDict (setPath d' (k2 :: ks) v)) from by
                simp only [setPath]
                rw [hl]]
              exact hgen _
            | vStr s =>
              rw [show setPath d (k :: k2 :: ks) v
                  = insertG d k (.vDict (setPath [] (k2 :: ks) v)) from by
                simp only [setPath]
                rw [hl]]
              exact hgen _
            | vInt n =>
              rw [show setPath d (k :: k2 :: ks) v
                  = insertG d k (.vDict (setPath [] (k2 :: ks) v)) from by
                simp only [setPath]
                rw [hl]]
              exact hgen _
            | vBool b =>
              rw [show setPath d (k :: k2 :: ks) v
                  = insertG d k (.vDict (setPath [] (k2 :: ks) v)) from by
                simp only [setPath]
                rw [hl]]
              exact hgen _
            | vArr l =>
              rw [show setPath d (k :: k2 :: ks) v
                  = insertG d k (.vDict (setPath [] (k2 :: ks) v)) from by
                simp only [setPath]
                rw [hl]]
              exact hgen _

/-- C2 amended: after loading, setting a marker-backed dotted path to v and
saving, the target file's contents become str(v); reloading the saved
document yields at that path the whitespace-stripped string str(v) — a
string, not v itself (a non-string v comes back as its str()
representation).  Hypotheses as for the round trip, minus the trimming
condition (the reload reads the freshly written file). -/
theorem C2_set_save_reload (fs : FS) (c0 : Config) (p : FsPath) (d0 : Doc)
    (q : List String) (sq : String) (tq : FsPath) (v : Value)
    (hdoc : fs.lookup p = some (.doc d0))
    (hpabs : p.absolute = true)
    (hnd : keysNodupD d0 = true)
    (hv : keysNodupV v = true)
    (hq : (q, sq, tq) ∈ collectEntries fs (some p) d0 [])
    (hdot : ∀ e ∈ collectEntries fs (some p) d0 [], ∀ sg ∈ e.1, ('.') ∉ sg.data)
    (hjnd : ((collectEntries fs (some p) d0 []).map
      (fun e => pyJoinDot e.1)).Nodup)
    (htsh : ∀ e ∈ collectEntries fs (some p) d0 [], e.2.2.absolute = true ∧
      ∀ sg ∈ e.2.2.segs, cleanSeg sg = true ∧ sg ≠ "~")
    (htd : ∀ e1 ∈ collectEntries fs (some p) d0 [],
      ∀ e2 ∈ collectEntries fs (some p) d0 [],
      pyJoinDot e1.1 ≠ pyJoinDot e2.1 → e1.2.2 ≠ e2.2.2)
    (htp : ∀ e ∈ collectEntries fs (some p) d0 [], e.2.2 ≠ p) :
    (Config.save fs (((Config.load fs c0 p).1).set (pyJoinDot q) v)
      none).2.2 = .ok () ∧
    ((Config.save fs (((Config.load fs c0 p).1).set (pyJoinDot q) v)
      none).2.1).lookup tq = some (.text (pyStr v)) ∧
    ((Config.load
        (Config.save fs (((Config.load fs c0 p).1).set (pyJoinDot q) v)
          none).2.1
        (Config.save fs (((Config.load fs c0 p).1).set (pyJoinDot q) v)
          none).1 p).1).get (pyJoinDot q)
      = some (.vStr (pyStrip (pyStr v))) := by
  have hc1p : (Config.load fs c0 p).1.config_path = some p := by
    simp [Config.load, hdoc]
  have hc1d : (Config.load fs c0 p).1._data = loadEntries fs (some p) d0 [] := by
    simp [Config.load, hdoc]
  have hc1f : (Config.load fs c0 p).1._file_mappings
      = (collectEntries fs (some p) d0 []).map
          (fun e => (pyJoinDot e.1, e.2.2)) :=
    load_file_mappings fs c0 p d0 hdoc hjnd
  have hentry : ∀ e ∈ collectEntries fs (some p) d0 [],
      e.1 ≠ [] ∧ getPath (.vDict d0) e.1 = some (.vStr e.2.1) ∧
      isMarker e.2.1 = true ∧ e.2.2 = resolveTarget fs (some p) e.2.1 := by
    intro e he
    obtain ⟨q', s', t'⟩ := e
    exact collect_at fs (some p) hnd he
  have hlive : ∀ e ∈ collectEntries fs (some p) d0 [], ∃ sl : String,
      getPath (.vDict (loadEntries fs (some p) d0 [])) e.1
        = some (.vStr sl) := by
    intro e he
    obtain ⟨hne, hgp, hmk, htg⟩ := hentry e he
    have hload : getPath (.vDict (loadEntries fs (some p) d0 [])) e.1
        = some (loadValue fs (some p) (.vStr e.2.1) e.1) := by
      have h := getPath_loadValue fs (some p) e.1 (.vDict d0) []
      rw [show loadValue fs (some p) (.vDict d0) []
          = .vDict (loadEntries fs (some p) d0 []) from by simp [loadValue]] at h
      rw [h, hgp]
      simp
    cases hfl : fs.lookup (resolveTarget fs (some p) e.2.1) with
    | some fd =>
      cases fd with
      | text content =>
        refine ⟨pyStrip content, ?_⟩
        rw [hload]
        congr 1
        simp [loadValue, hmk, hfl]
      | doc dd =>
        refine ⟨e.2.1, ?_⟩
        rw [hload]
        congr 1
        simp [loadValue, hmk, hfl]
    | none =>
      refine ⟨e.2.1, ?_⟩
      rw [hload]
      congr 1
      simp [loadValue, hmk, hfl]
  have hpaircolls : (collectEntries fs (some p) d0 []).Pairwise
      (fun a b => isPreL a.1 b.1 = false ∧ isPreL b.1 a.1 = false) := by
    have h1 : (collectEntries fs (some p) d0 []).Pairwise
        (fun a b => pyJoinDot a.1 ≠ pyJoinDot b.1) := List.pairwise_map.mp hjnd
    apply List.Pairwise.imp_of_mem ?himp h1
    intro a b ha hb hne
    have hpa := (hentry a ha).2.1
    have hpb := (hentry b hb).2.1
    constructor
    · by_contra hcc
      rw [Bool.not_eq_false] at hcc
      have happ := isPreL_append_drop a.1 b.1 hcc
      have hdropne : b.1.drop a.1.length ≠ [] := by
        intro hnil
        apply hne
        rw [show a.1 = b.1 from by rw [← happ, hnil, List.append_nil]]
      have hcomp := getPath_append (b.1.drop a.1.length) a.1 (.vDict d0)
      rw [happ, hpb, hpa] at hcomp
      cases hdp : b.1.drop a.1.length with
      | nil => exact hdropne hdp
      | cons c cs =>
        rw [hdp] at hcomp
        simp [getPath] at hcomp
    · by_contra hcc
      rw [Bool.not_eq_false] at hcc
      have happ := isPreL_append_drop b.1 a.1 hcc
      have hdropne : a.1.drop b.1.length ≠ [] := by
        intro hnil
        apply hne
        rw [show b.1 = a.1 from by rw [← happ, hnil, List.append_nil]]
      have hcomp := getPath_append (a.1.drop b.1.length) b.1 (.vDict d0)
      rw [happ, hpa, hpb] at hcomp
      cases hdp : a.1.drop b.1.length with
      | nil => exact hdropne hdp
      | cons c cs =>
        rw [hdp] at hcomp
        simp [getPath] at hcomp
  have hpairms : ((collectEntries fs (some p) d0 []).map
      (fun e => (e.1, e.2.2))).Pairwise
      (fun a b => isPreL a.1 b.1 = false ∧ isPreL b.1 a.1 = false) :=
    List.pairwise_map.mpr hpaircolls
  have hnd1 : keysNodupD (loadEntries fs (some p) d0 []) = true :=
    (keysNodup_load_aux fs (some p) (sizeOf d0)).2 d0 le_rfl hnd []
  have hneq : q ≠ [] := (hentry (q, sq, tq) hq).1
  have hsplit : pySplitDot (pyJoinDot q) = q :=
    pySplitDot_pyJoinDot q hneq (hdot (q, sq, tq) hq)
  have hc2p : (((Config.load fs c0 p).1).set (pyJoinDot q) v).config_path
      = some p := hc1p
  have hc2f : (((Config.load fs c0 p).1).set (pyJoinDot q) v)._file_mappings
      = (collectEntries fs (some p) d0 []).map
          (fun e => (pyJoinDot e.1, e.2.2)) := hc1f
  have hc2d : (((Config.load fs c0 p).1).set (pyJoinDot q) v)._data
      = setPath (loadEntries fs (some p) d0 []) q v := by
    show setPath ((Config.load fs c0 p).1._data) (pySplitDot (pyJoinDot q)) v
      = _
    rw [hc1d, hsplit]
  have hgq : getPath (.vDict (setPath (loadEntries fs (some p) d0 []) q v)) q
      = some v := getPath_setPath v q _ hneq
  have hinc : ∀ e ∈ collectEntries fs (some p) d0 [], e.1 ≠ q →
      isPreL e.1 q = false ∧ isPreL q e.1 = false := by
    intro e he hne
    have hneel : e ≠ (q, sq, tq) := fun hh => hne (by rw [hh])
    have hsymm : Symmetric (fun a b : List String × String × FsPath =>
        isPreL a.1 b.1 = false ∧ isPreL b.1 a.1 = false) :=
      fun a b hab => ⟨hab.2, hab.1⟩
    exact List.Pairwise.forall hsymm hpaircolls he hq hneel
  have hnav2 : ∀ e ∈ (collectEntries fs (some p) d0 []).map
      (fun e => (e.1, e.2.2)),
      navOkD (setPath (loadEntries fs (some p) d0 []) q v) e.1 = true := by
    intro e he
    obtain ⟨e0, he0, hee⟩ := List.mem_map.mp he
    rw [← hee]
    by_cases h : e0.1 = q
    · rw [h]
      exact navOk_of_getPath q _ v hgq hneq
    · have hi := hinc e0 he0 h
      obtain ⟨sl, hsl⟩ := hlive e0 he0
      refine navOk_of_getPath e0.1 _ (.vStr sl) ?_ (hentry e0 he0).1
      rw [getPath_setPath_other v q e0.1 _ hi.2 hi.1]
      exact hsl
  have hnd2 : keysNodupD (setPath (loadEntries fs (some p) d0 []) q v)
      = true := keysNodup_setPath v hv q _ hnd1
  have hsd : prepareDataForSave (((Config.load fs c0 p).1).set (pyJoinDot q) v)
      = restoreSpecD (some p) ((collectEntries fs (some p) d0 []).map
          (fun e => (e.1, e.2.2)))
          (setPath (loadEntries fs (some p) d0 []) q v) [] := by
    unfold prepareDataForSave
    rw [hc2f, hc2p, hc2d]
    rw [List.foldl_map]
    rw [foldl_congr_mem _ _
      (fun sd e => restoreKeys sd e.1 (buildMarker (some p) e.2.2)) _
      (by
        intro a' e he
        rw [pySplitDot_pyJoinDot e.1 (hentry e he).1 (hdot e he)])]
    rw [show (collectEntries fs (some p) d0 []).foldl
        (fun sd e => restoreKeys sd e.1 (buildMarker (some p) e.2.2))
        (setPath (loadEntries fs (some p) d0 []) q v)
      = ((collectEntries fs (some p) d0 []).map (fun e => (e.1, e.2.2))).foldl
        (fun sd e => restoreKeys sd e.1 (buildMarker (some p) e.2))
        (setPath (loadEntries fs (some p) d0 []) q v) from by
      rw [List.foldl_map]]
    exact foldl_restoreKeys_spec (some p) _ _ hnd2 hnav2 hpairms
  have hsave_eq : Config.save fs
      (((Config.load fs c0 p).1).set (pyJoinDot q) v) none
      = ({ ((Config.load fs c0 p).1).set (pyJoinDot q) v with
            config_path := some p },
         (saveFileVariables fs
           (((Config.load fs c0 p).1).set (pyJoinDot q) v)).write p
           (.doc (prepareDataForSave
             (((Config.load fs c0 p).1).set (pyJoinDot q) v))),
         .ok ()) := by
    unfold Config.save
    rw [show (match (none : Option FsPath) with
        | some q' => some q'
        | none => (((Config.load fs c0 p).1).set
            (pyJoinDot q) v).config_path)
      = some p from hc2p]
  have hget2 : (((Config.load fs c0 p).1).set (pyJoinDot q) v).get
      (pyJoinDot q) = some v := by
    unfold Config.get
    rw [hc2d, hsplit]
    exact hgq
  have htfile : ((saveFileVariables fs
      (((Config.load fs c0 p).1).set (pyJoinDot q) v)).write p
      (.doc (prepareDataForSave
        (((Config.load fs c0 p).1).set (pyJoinDot q) v)))).lookup tq
      = some (.text (pyStr v)) := by
    rw [lookup_write_ne _ p tq _ hpabs (htsh (q, sq, tq) hq).1
      (fun hh => htp (q, sq, tq) hq hh.symm)]
    unfold saveFileVariables
    rw [hc2f]
    have := saveFileVariables_fold_target
      (((Config.load fs c0 p).1).set (pyJoinDot q) v)
      ((collectEntries fs (some p) d0 []).map (fun e => (pyJoinDot e.1, e.2.2)))
      fs (pyJoinDot q) tq v
      (List.mem_map.mpr ⟨(q, sq, tq), hq, rfl⟩)
      (htsh (q, sq, tq) hq).1
      (by
        intro e' he'
        obtain ⟨a, ha, haa⟩ := List.mem_map.mp he'
        rw [← haa]
        exact (htsh a ha).1)
      (by
        intro e' he' hne'
        obtain ⟨a, ha, haa⟩ := List.mem_map.mp he'
        rw [← haa]
        rw [← haa] at hne'
        exact htd a ha (q, sq, tq) hq hne')
      (by
        rw [List.map_map]
        simpa [Function.comp] using hjnd)
      hget2
    exact this
  refine ⟨by rw [hsave_eq], ?_, ?_⟩
  · rw [show (Config.save fs
        (((Config.load fs c0 p).1).set (pyJoinDot q) v) none).2.1
      = (saveFileVariables fs
          (((Config.load fs c0 p).1).set (pyJoinDot q) v)).write p
          (.doc (prepareDataForSave
            (((Config.load fs c0 p).1).set (pyJoinDot q) v))) from by
      rw [hsave_eq]]
    exact htfile
  · rw [hsave_eq]
    show ((Config.load ((saveFileVariables fs
        (((Config.load fs c0 p).1).set (pyJoinDot q) v)).write p
        (.doc (prepareDataForSave
          (((Config.load fs c0 p).1).set (pyJoinDot q) v))))
        { ((Config.load fs c0 p).1).set (pyJoinDot q) v with
          config_path := some p } p).1).get (pyJoinDot q) = _
    have hrel : ((saveFileVariables fs
        (((Config.load fs c0 p).1).set (pyJoinDot q) v)).write p
        (.doc (prepareDataForSave
          (((Config.load fs c0 p).1).set (pyJoinDot q) v)))).lookup p
        = some (.doc (prepareDataForSave
          (((Config.load fs c0 p).1).set (pyJoinDot q) v))) :=
      lookup_write_self _ _ _
    unfold Config.get
    rw [load_data_of_doc _ _ p _ hrel]
    rw [hsplit]
    have hmsnodup : (((collectEntries fs (some p) d0 []).map
        (fun e => (e.1, e.2.2))).map (fun e => e.1)).Nodup := by
      rw [List.map_map]
      have : ((collectEntries fs (some p) d0 []).map
          (fun e => e.1)).Nodup := by
        apply List.Nodup.of_map pyJoinDot
        rw [List.map_map]
        simpa [Function.comp] using hjnd
      simpa [Function.comp] using this
    have hlkq : lookupG ((collectEntries fs (some p) d0 []).map
        (fun e => (e.1, e.2.2))) q = some tq :=
      lookupG_of_mem_nodup (List.mem_map.mpr ⟨(q, sq, tq), hq, rfl⟩) hmsnodup
    have hmark : getPath (.vDict (prepareDataForSave
        (((Config.load fs c0 p).1).set (pyJoinDot q) v))) q
        = some (.vStr (buildMarker (some p) tq)) := by
      rw [hsd]
      apply getPath_restoreSpecD_at (some p) _ q _ [] tq hneq
      · simpa using hlkq
      · intro e he
        obtain ⟨e0, he0, hee⟩ := List.mem_map.mp he
        by_cases h : e0.1 = q
        · left
          rw [← hee]
          simpa using h
        · right
          rw [← hee]
          simpa using (hinc e0 he0 h).1
      · rw [hgq]
        rfl
    have hgl := getPath_loadValue ((saveFileVariables fs
        (((Config.load fs c0 p).1).set (pyJoinDot q) v)).write p
        (.doc (prepareDataForSave
          (((Config.load fs c0 p).1).set (pyJoinDot q) v)))) (some p) q
      (.vDict (prepareDataForSave
        (((Config.load fs c0 p).1).set (pyJoinDot q) v))) []
    rw [show loadValue ((saveFileVariables fs
        (((Config.load fs c0 p).1).set (pyJoinDot q) v)).write p
        (.doc (prepareDataForSave
          (((Config.load fs c0 p).1).set (pyJoinDot q) v)))) (some p)
        (.vDict (prepareDataForSave
          (((Config.load fs c0 p).1).set (pyJoinDot q) v))) []
        = .vDict (loadEntries ((saveFileVariables fs
            (((Config.load fs c0 p).1).set (pyJoinDot q) v)).write p
            (.doc (prepareDataForSave
              (((Config.load fs c0 p).1).set (pyJoinDot q) v)))) (some p)
            (prepareDataForSave
              (((Config.load fs c0 p).1).set (pyJoinDot q) v)) [])
      from by simp [loadValue]] at hgl
    rw [hgl, hmark, Option.map_some']
    have hmk := buildMarker_isMarker (some p) tq
    have hrt := resolveTarget_buildMarker ((saveFileVariables fs
        (((Config.load fs c0 p).1).set (pyJoinDot q) v)).write p
        (.doc (prepareDataForSave
          (((Config.load fs c0 p).1).set (pyJoinDot q) v)))) p tq hpabs
      (htsh (q, sq, tq) hq).1
      (fun sg hsg => ((htsh (q, sq, tq) hq).2 sg hsg).1)
      (fun sg hsg => ((htsh (q, sq, tq) hq).2 sg hsg).2)
    simp [loadValue, hmk, hrt, htfile]

def c2fs : FS := ⟨["w"], ["h"],
  [(⟨true, ["cfg", "app.toml"]⟩,
    .doc [("secrets", .vDict [("key", .vStr "file://content.txt")])]),
   (⟨true, ["cfg", "content.txt"]⟩, .text "old")]⟩

/-- Counterexample scenario for getting back v itself: setting the
marker-backed path to the integer 5, saving and reloading yields the
string "5", because the write-back stores str(value) and the reload reads
the file as text. -/
theorem C2_counterexample :
    ((Config.save c2fs (((Config.load c2fs ⟨none, [], []⟩
        ⟨true, ["cfg", "app.toml"]⟩).1).set "secrets.key" (.vInt 5))
        none).2.1).lookup ⟨true, ["cfg", "content.txt"]⟩
      = some (.text "5") ∧
    ((Config.load
        (Config.save c2fs (((Config.load c2fs ⟨none, [], []⟩
          ⟨true, ["cfg", "app.toml"]⟩).1).set "secrets.key" (.vInt 5))
          none).2.1
        (Config.save c2fs (((Config.load c2fs ⟨none, [], []⟩
          ⟨true, ["cfg", "app.toml"]⟩).1).set "secrets.key" (.vInt 5))
          none).1 ⟨true, ["cfg", "app.toml"]⟩).1).get "secrets.key"
      = some (.vStr "5") ∧
    some (Value.vStr "5") ≠ some (Value.vInt 5) :=
  ⟨rfl, rfl, by simp⟩

/-- Instantiation of the set-save-reload theorem on a concrete store. -/
theorem C2_witness :
    (Config.save c2fs (((Config.load c2fs ⟨none, [], []⟩
        ⟨true, ["cfg", "app.toml"]⟩).1).set (pyJoinDot ["secrets", "key"])
        (.vInt 5)) none).2.2 = .ok () ∧
    ((Config.save c2fs (((Config.load c2fs ⟨none, [], []⟩
        ⟨true, ["cfg", "app.toml"]⟩).1).set (pyJoinDot ["secrets", "key"])
        (.vInt 5)) none).2.1).lookup ⟨true, ["cfg", "content.txt"]⟩
      = some (.text (pyStr (.vInt 5))) ∧
    ((Config.load
        (Config.save c2fs (((Config.load c2fs ⟨none, [], []⟩
          ⟨true, ["cfg", "app.toml"]⟩).1).set (pyJoinDot ["secrets", "key"])
          (.vInt 5)) none).2.1
        (Config.save c2fs (((Config.load c2fs ⟨none, [], []⟩
          ⟨true, ["cfg", "app.toml"]⟩).1).set (pyJoinDot ["secrets", "key"])
          (.vInt 5)) none).1 ⟨true, ["cfg", "app.toml"]⟩).1).get
        (pyJoinDot ["secrets", "key"])
      = some (.vStr (pyStrip (pyStr (.vInt 5)))) :=
  C2_set_save_reload c2fs ⟨none, [], []⟩ ⟨true, ["cfg", "app.toml"]⟩
    [("secrets", .vDict [("key", .vStr "file://content.txt")])]
    ["secrets", "key"] "file://content.txt" ⟨true, ["cfg", "content.txt"]⟩
    (.vInt 5)
    rfl rfl (by decide) rfl (by decide) (by decide) (by decide) (by decide)
    (by decide) (by decide)

/-! ### C3: unmodified marker-backed paths across a save -/

/-- C3 amended: save() rewrites every mapped target file with str of the
current live value even when the path was never set; for an unmodified
marker-backed path whose target held text, the file afterwards holds the
whitespace-stripped original contents (so it is byte-identical only when
the original contents were already stripped), and the saved document does
still contain a file:// marker at that path. -/
theorem C3_unmodified_marker (fs : FS) (c0 : Config) (p : FsPath) (d0 : Doc)
    (q : List String) (sq : String) (tq : FsPath) (content : String)
    (hdoc : fs.lookup p = some (.doc d0))
    (hpabs : p.absolute = true)
    (hnd : keysNodupD d0 = true)
    (hq : (q, sq, tq) ∈ collectEntries fs (some p) d0 [])
    (htext : fs.lookup tq = some (.text content))
    (hdot : ∀ e ∈ collectEntries fs (some p) d0 [], ∀ sg ∈ e.1, ('.') ∉ sg.data)
    (hjnd : ((collectEntries fs (some p) d0 []).map
      (fun e => pyJoinDot e.1)).Nodup)
    (htsh : ∀ e ∈ collectEntries fs (some p) d0 [], e.2.2.absolute = true ∧
      ∀ sg ∈ e.2.2.segs, cleanSeg sg = true ∧ sg ≠ "~")
    (htd : ∀ e1 ∈ collectEntries fs (some p) d0 [],
      ∀ e2 ∈ collectEntries fs (some p) d0 [],
      pyJoinDot e1.1 ≠ pyJoinDot e2.1 → e1.2.2 ≠ e2.2.2)
    (htp : ∀ e ∈ collectEntries fs (some p) d0 [], e.2.2 ≠ p) :
    (Config.save fs (Config.load fs c0 p).1 none).2.2 = .ok () ∧
    ((Config.save fs (Config.load fs c0 p).1 none).2.1).lookup tq
      = some (.text (pyStrip content)) ∧
    ((Config.save fs (Config.load fs c0 p).1 none).2.1).lookup p
      = some (.doc (prepareDataForSave (Config.load fs c0 p).1)) ∧
    getPath (.vDict (prepareDataForSave (Config.load fs c0 p).1)) q
      = some (.vStr (buildMarker (some p) tq)) ∧
    isMarker (buildMarker (some p) tq) = true := by
  have hc1p : (Config.load fs c0 p).1.config_path = some p := by
    simp [Config.load, hdoc]
  have hc1d : (Config.load fs c0 p).1._data = loadEntries fs (some p) d0 [] := by
    simp [Config.load, hdoc]
  have hc1f : (Config.load fs c0 p).1._file_mappings
      = (collectEntries fs (some p) d0 []).map
          (fun e => (pyJoinDot e.1, e.2.2)) :=
    load_file_mappings fs c0 p d0 hdoc hjnd
  have hentry : ∀ e ∈ collectEntries fs (some p) d0 [],
      e.1 ≠ [] ∧ getPath (.vDict d0) e.1 = some (.vStr e.2.1) ∧
      isMarker e.2.1 = true ∧ e.2.2 = resolveTarget fs (some p) e.2.1 := by
    intro e he
    obtain ⟨q', s', t'⟩ := e
    exact collect_at fs (some p) hnd he
  have hload : ∀ e ∈ collectEntries fs (some p) d0 [],
      getPath (.vDict (loadEntries fs (some p) d0 [])) e.1
        = some (loadValue fs (some p) (.vStr e.2.1) e.1) := by
    intro e he
    have h := getPath_loadValue fs (some p) e.1 (.vDict d0) []
    rw [show loadValue fs (some p) (.vDict d0) []
        = .vDict (loadEntries fs (some p) d0 []) from by simp [loadValue]] at h
    rw [h, (hentry e he).2.1]
    simp
  have hlive : ∀ e ∈ collectEntries fs (some p) d0 [], ∃ sl : String,
      getPath (.vDict (loadEntries fs (some p) d0 [])) e.1
        = some (.vStr sl) := by
    intro e he
    obtain ⟨hne, hgp, hmk, htg⟩ := hentry e he
    cases hfl : fs.lookup (resolveTarget fs (some p) e.2.1) with
    | some fd =>
      cases fd with
      | text c' =>
        refine ⟨pyStrip c', ?_⟩
        rw [hload e he]
        congr 1
        simp [loadValue, hmk, hfl]
      | doc dd =>
        refine ⟨e.2.1, ?_⟩
        rw [hload e he]
        congr 1
        simp [loadValue, hmk, hfl]
    | none =>
      refine ⟨e.2.1, ?_⟩
      rw [hload e he]
      congr 1
      simp [loadValue, hmk, hfl]
  have hliveq : getPath (.vDict (loadEntries fs (some p) d0 []))
      q = some (.vStr (pyStrip content)) := by
    obtain ⟨hne, hgp, hmk, htg⟩ := hentry (q, sq, tq) hq
    dsimp only at hne hgp hmk htg
    have htext' : fs.lookup (resolveTarget fs (some p) sq)
        = some (.text content) := by
      rw [← htg]
      exact htext
    have hld := hload (q, sq, tq) hq
    dsimp only at hld
    rw [hld]
    congr 1
    simp [loadValue, hmk, htext']
  have hpaircolls : (collectEntries fs (some p) d0 []).Pairwise
      (fun a b => isPreL a.1 b.1 = false ∧ isPreL b.1 a.1 = false) := by
    have h1 : (collectEntries fs (some p) d0 []).Pairwise
        (fun a b => pyJoinDot a.1 ≠ pyJoinDot b.1) := List.pairwise_map.mp hjnd
    apply List.Pairwise.imp_of_mem ?himp h1
    intro a b ha hb hne
    have hpa := (hentry a ha).2.1
    have hpb := (hentry b hb).2.1
    constructor
    · by_contra hcc
      rw [Bool.not_eq_false] at hcc
      have happ := isPreL_append_drop a.1 b.1 hcc
      have hdropne : b.1.drop a.1.length ≠ [] := by
        intro hnil
        apply hne
        rw [show a.1 = b.1 from by rw [← happ, hnil, List.append_nil]]
      have hcomp := getPath_append (b.1.drop a.1.length) a.1 (.vDict d0)
      rw [happ, hpb, hpa] at hcomp
      cases hdp : b.1.drop a.1.length with
      | nil => exact hdropne hdp
      | cons c cs =>
        rw [hdp] at hcomp
        simp [getPath] at hcomp
    · by_contra hcc
      rw [Bool.not_eq_false] at hcc
      have happ := isPreL_append_drop b.1 a.1 hcc
      have hdropne : a.1.drop b.1.length ≠ [] := by
        intro hnil
        apply hne
        rw [show b.1 = a.1 from by rw [← happ, hnil, List.append_nil]]
      have hcomp := getPath_append (a.1.drop b.1.length) b.1 (.vDict d0)
      rw [happ, hpa, hpb] at hcomp
      cases hdp : a.1.drop b.1.length with
      | nil => exact hdropne hdp
      | cons c cs =>
        rw [hdp] at hcomp
        simp [getPath] at hcomp
  have hpairms : ((collectEntries fs (some p) d0 []).map
      (fun e => (e.1, e.2.2))).Pairwise
      (fun a b => isPreL a.1 b.1 = false ∧ isPreL b.1 a.1 = false) :=
    List.pairwise_map.mpr hpaircolls
  have hnd1 : keysNodupD (loadEntries fs (some p) d0 []) = true :=
    (keysNodup_load_aux fs (some p) (sizeOf d0)).2 d0 le_rfl hnd []
  have hneq : q ≠ [] := (hentry (q, sq, tq) hq).1
  have hsplit : pySplitDot (pyJoinDot q) = q :=
    pySplitDot_pyJoinDot q hneq (hdot (q, sq, tq) hq)
  have hnav : ∀ e ∈ (collectEntries fs (some p) d0 []).map
      (fun e => (e.1, e.2.2)),
      navOkD (loadEntries fs (some p) d0 []) e.1 = true := by
    intro e he
    obtain ⟨e0, he0, hee⟩ := List.mem_map.mp he
    obtain ⟨sl, hsl⟩ := hlive e0 he0
    rw [← hee]
    exact navOk_of_getPath e0.1 _ _ hsl (hentry e0 he0).1
  have hsd : prepareDataForSave (Config.load fs c0 p).1
      = restoreSpecD (some p) ((collectEntries fs (some p) d0 []).map
          (fun e => (e.1, e.2.2))) (loadEntries fs (some p) d0 []) [] := by
    unfold prepareDataForSave
    rw [hc1f, hc1p, hc1d]
    rw [List.foldl_map]
    rw [foldl_congr_mem _ _
      (fun sd e => restoreKeys sd e.1 (buildMarker (some p) e.2.2)) _
      (by
        intro a' e he
        rw [pySplitDot_pyJoinDot e.1 (hentry e he).1 (hdot e he)])]
    rw [show (collectEntries fs (some p) d0 []).foldl
        (fun sd e => restoreKeys sd e.1 (buildMarker (some p) e.2.2))
        (loadEntries fs (some p) d0 [])
      = ((collectEntries fs (some p) d0 []).map (fun e => (e.1, e.2.2))).foldl
        (fun sd e => restoreKeys sd e.1 (buildMarker (some p) e.2))
        (loadEntries fs (some p) d0 []) from by
      rw [List.foldl_map]]
    exact foldl_restoreKeys_spec (some p) _ _ hnd1 hnav hpairms
  have hsave_eq : Config.save fs (Config.load fs c0 p).1 none
      = ({ (Config.load fs c0 p).1 with config_path := some p },
         (saveFileVariables fs (Config.load fs c0 p).1).write p
           (.doc (prepareDataForSave (Config.load fs c0 p).1)),
         .ok ()) := by
    unfold Config.save
    rw [show (match (none : Option FsPath) with
        | some q' => some q'
        | none => (Config.load fs c0 p).1.config_path)
      = some p from hc1p]
  have hget1 : ((Config.load fs c0 p).1).get (pyJoinDot q)
      = some (.vStr (pyStrip content)) := by
    unfold Config.get
    rw [hc1d, hsplit]
    exact hliveq
  have htfile : ((saveFileVariables fs (Config.load fs c0 p).1).write p
      (.doc (prepareDataForSave (Config.load fs c0 p).1))).lookup tq
      = some (.text (pyStrip content)) := by
    rw [lookup_write_ne _ p tq _ hpabs (htsh (q, sq, tq) hq).1
      (fun hh => htp (q, sq, tq) hq hh.symm)]
    unfold saveFileVariables
    rw [hc1f]
    have := saveFileVariables_fold_target (Config.load fs c0 p).1
      ((collectEntries fs (some p) d0 []).map (fun e => (pyJoinDot e.1, e.2.2)))
      fs (pyJoinDot q) tq (.vStr (pyStrip content))
      (List.mem_map.mpr ⟨(q, sq, tq), hq, rfl⟩)
      (htsh (q, sq, tq) hq).1
      (by
        intro e' he'
        obtain ⟨a, ha, haa⟩ := List.mem_map.mp he'
        rw [← haa]
        exact (htsh a ha).1)
      (by
        intro e' he' hne'
        obtain ⟨a, ha, haa⟩ := List.mem_map.mp he'
        rw [← haa]
        rw [← haa] at hne'
        exact htd a ha (q, sq, tq) hq hne')
      (by
        rw [List.map_map]
        simpa [Function.comp] using hjnd)
      hget1
    rw [show pyStr (.vStr (pyStrip content)) = pyStrip content from rfl] at this
    exact this
  have hmark : getPath (.vDict (prepareDataForSave (Config.load fs c0 p).1)) q
      = some (.vStr (buildMarker (some p) tq)) := by
    rw [hsd]
    have hmsnodup : (((collectEntries fs (some p) d0 []).map
        (fun e => (e.1, e.2.2))).map (fun e => e.1)).Nodup := by
      rw [List.map_map]
      have : ((collectEntries fs (some p) d0 []).map
          (fun e => e.1)).Nodup := by
        apply List.Nodup.of_map pyJoinDot
        rw [List.map_map]
        simpa [Function.comp] using hjnd
      simpa [Function.comp] using this
    have hlkq : lookupG ((collectEntries fs (some p) d0 []).map
        (fun e => (e.1, e.2.2))) q = some tq :=
      lookupG_of_mem_nodup (List.mem_map.mpr ⟨(q, sq, tq), hq, rfl⟩) hmsnodup
    apply getPath_restoreSpecD_at (some p) _ q _ [] tq hneq
    · simpa using hlkq
    · intro e he
      obtain ⟨e0, he0, hee⟩ := List.mem_map.mp he
      by_cases h : e0.1 = q
      · left
        rw [← hee]
        simpa using h
      · right
        rw [← hee]
        have hneel : e0 ≠ (q, sq, tq) := fun hh => h (by rw [hh])
        have hsymm : Symmetric (fun a b : List String × String × FsPath =>
            isPreL a.1 b.1 = false ∧ isPreL b.1 a.1 = false) :=
          fun a b hab => ⟨hab.2, hab.1⟩
        simpa using (List.Pairwise.forall hsymm hpaircolls he0 hq hneel).1
    · rw [hliveq]
      rfl
  refine ⟨by rw [hsave_eq], ?_, ?_, hmark, buildMarker_isMarker (some p) tq⟩
  · rw [show (Config.save fs (Config.load fs c0 p).1 none).2.1
      = (saveFileVariables fs (Config.load fs c0 p).1).write p
          (.doc (prepareDataForSave (Config.load fs c0 p).1)) from by
      rw [hsave_eq]]
    exact htfile
  · rw [show (Config.save fs (Config.load fs c0 p).1 none).2.1
      = (saveFileVariables fs (Config.load fs c0 p).1).write p
          (.doc (prepareDataForSave (Config.load fs c0 p).1)) from by
      rw [hsave_eq]]
    exact lookup_write_self _ _ _

def c3fs : FS := ⟨["w"], ["h"],
  [(⟨true, ["cfg", "app.toml"]⟩,
    .doc [("secrets", .vDict [("key", .vStr "file://content.txt")])]),
   (⟨true, ["cfg", "content.txt"]⟩, .text "abc\n")]⟩

/-- Counterexample scenario for the untouched-file claim: a target file
holding a trailing newline is rewritten by save() with the stripped live
value, so its contents change even though the path was never set. -/
theorem C3_counterexample :
    c3fs.lookup ⟨true, ["cfg", "content.txt"]⟩ = some (.text "abc\n") ∧
    ((Config.save c3fs (Config.load c3fs ⟨none, [], []⟩
        ⟨true, ["cfg", "app.toml"]⟩).1 none).2.1).lookup
        ⟨true, ["cfg", "content.txt"]⟩
      = some (.text "abc") ∧
    ("abc" : String) ≠ "abc\n" :=
  ⟨rfl, rfl, by decide⟩

/-- Instantiation of the unmodified-marker theorem on the same store. -/
theorem C3_witness :
    (Config.save c3fs (Config.load c3fs ⟨none, [], []⟩
        ⟨true, ["cfg", "app.toml"]⟩).1 none).2.2 = .ok () ∧
    ((Config.save c3fs (Config.load c3fs ⟨none, [], []⟩
        ⟨true, ["cfg", "app.toml"]⟩).1 none).2.1).lookup
        ⟨true, ["cfg", "content.txt"]⟩
      = some (.text (pyStrip "abc\n")) ∧
    ((Config.save c3fs (Config.load c3fs ⟨none, [], []⟩
        ⟨true, ["cfg", "app.toml"]⟩).1 none).2.1).lookup
        ⟨true, ["cfg", "app.toml"]⟩
      = some (.doc (prepareDataForSave (Config.load c3fs ⟨none, [], []⟩
          ⟨true, ["cfg", "app.toml"]⟩).1)) ∧
    getPath (.vDict (prepareDataForSave (Config.load c3fs ⟨none, [], []⟩
        ⟨true, ["cfg", "app.toml"]⟩).1)) ["secrets", "key"]
      = some (.vStr (buildMarker (some ⟨true, ["cfg", "app.toml"]⟩)
          ⟨true, ["cfg", "content.txt"]⟩)) ∧
    isMarker (buildMarker (some ⟨true, ["cfg", "app.toml"]⟩)
        ⟨true, ["cfg", "content.txt"]⟩) = true :=
  C3_unmodified_marker c3fs ⟨none, [], []⟩ ⟨true, ["cfg", "app.toml"]⟩
    [("secrets", .vDict [("key", .vStr "file://content.txt")])]
    ["secrets", "key"] "file://content.txt" ⟨true, ["cfg", "content.txt"]⟩
    "abc\n"
    rfl rfl (by decide) (by decide) rfl (by decide) (by decide) (by decide)
    (by decide) (by decide)

/-! ### C4: which directory markers are relativized against -/

/-- C4 amended: when save(dest) restores a marker into the save-time copy,
the marker is built against the handle's previously recorded document path
(config_path is only updated to the destination after the dump): an
absolute stored target is expressed relative to the OLD document's
directory when it lies under it and absolutely otherwise, and a
non-absolute stored target is emitted verbatim.  The destination's
directory plays no role. -/
theorem C4_marker_relativization (fs : FS) (c0 : Config) (p newp : FsPath)
    (d0 : Doc) (q : List String) (sq : String) (tq : FsPath)
    (hdoc : fs.lookup p = some (.doc d0))
    (hnd : keysNodupD d0 = true)
    (hq : (q, sq, tq) ∈ collectEntries fs (some p) d0 [])
    (hdot : ∀ e ∈ collectEntries fs (some p) d0 [], ∀ sg ∈ e.1, ('.') ∉ sg.data)
    (hjnd : ((collectEntries fs (some p) d0 []).map
      (fun e => pyJoinDot e.1)).Nodup) :
    (Config.save fs (Config.load fs c0 p).1 (some newp)).2.2 = .ok () ∧
    ((Config.save fs (Config.load fs c0 p).1 (some newp)).2.1).lookup newp
      = some (.doc (prepareDataForSave (Config.load fs c0 p).1)) ∧
    getPath (.vDict (prepareDataForSave (Config.load fs c0 p).1)) q
      = some (.vStr (buildMarker (some p) tq)) ∧
    buildMarker (some p) tq
      = (if tq.absolute = true then
          match FsPath.relativeTo tq p.parent with
          | some rel => markerPre ++ rel.render
          | none => markerPre ++ tq.render
        else markerPre ++ tq.render) := by
  have hc1p : (Config.load fs c0 p).1.config_path = some p := by
    simp [Config.load, hdoc]
  have hc1d : (Config.load fs c0 p).1._data = loadEntries fs (some p) d0 [] := by
    simp [Config.load, hdoc]
  have hc1f : (Config.load fs c0 p).1._file_mappings
      = (collectEntries fs (some p) d0 []).map
          (fun e => (pyJoinDot e.1, e.2.2)) :=
    load_file_mappings fs c0 p d0 hdoc hjnd
  have hentry : ∀ e ∈ collectEntries fs (some p) d0 [],
      e.1 ≠ [] ∧ getPath (.vDict d0) e.1 = some (.vStr e.2.1) ∧
      isMarker e.2.1 = true ∧ e.2.2 = resolveTarget fs (some p) e.2.1 := by
    intro e he
    obtain ⟨q', s', t'⟩ := e
    exact collect_at fs (some p) hnd he
  have hload : ∀ e ∈ collectEntries fs (some p) d0 [],
      getPath (.vDict (loadEntries fs (some p) d0 [])) e.1
        = some (loadValue fs (some p) (.vStr e.2.1) e.1) := by
    intro e he
    have h := getPath_loadValue fs (some p) e.1 (.vDict d0) []
    rw [show loadValue fs (some p) (.vDict d0) []
        = .vDict (loadEntries fs (some p) d0 []) from by simp [loadValue]] at h
    rw [h, (hentry e he).2.1]
    simp
  have hlive : ∀ e ∈ collectEntries fs (some p) d0 [], ∃ sl : String,
      getPath (.vDict (loadEntries fs (some p) d0 [])) e.1
        = some (.vStr sl) := by
    intro e he
    obtain ⟨hne, hgp, hmk, htg⟩ := hentry e he
    cases hfl : fs.lookup (resolveTarget fs (some p) e.2.1) with
    | some fd =>
      cases fd with
      | text c' =>
        refine ⟨pyStrip c', ?_⟩
        rw [hload e he]
        congr 1
        simp [loadValue, hmk, hfl]
      | doc dd =>
        refine ⟨e.2.1, ?_⟩
        rw [hload e he]
        congr 1
        simp [loadValue, hmk, hfl]
    | none =>
      refine ⟨e.2.1, ?_⟩
      rw [hload e he]
      congr 1
      simp [loadValue, hmk, hfl]
  have hpaircolls : (collectEntries fs (some p) d0 []).Pairwise
      (fun a b => isPreL a.1 b.1 = false ∧ isPreL b.1 a.1 = false) := by
    have h1 : (collectEntries fs (some p) d0 []).Pairwise
        (fun a b => pyJoinDot a.1 ≠ pyJoinDot b.1) := List.pairwise_map.mp hjnd
    apply List.Pairwise.imp_of_mem ?himp h1
    intro a b ha hb hne
    have hpa := (hentry a ha).2.1
    have hpb := (hentry b hb).2.1
    constructor
    · by_contra hcc
      rw [Bool.not_eq_false] at hcc
      have happ := isPreL_append_drop a.1 b.1 hcc
      have hdropne : b.1.drop a.1.length ≠ [] := by
        intro hnil
        apply hne
        rw [show a.1 = b.1 from by rw [← happ, hnil, List.append_nil]]
      have hcomp := getPath_append (b.1.drop a.1.length) a.1 (.vDict d0)
      rw [happ, hpb, hpa] at hcomp
      cases hdp : b.1.drop a.1.length with
      | nil => exact hdropne hdp
      | cons c cs =>
        rw [hdp] at hcomp
        simp [getPath] at hcomp
    · by_contra hcc
      rw [Bool.not_eq_false] at hcc
      have happ := isPreL_append_drop b.1 a.1 hcc
      have hdropne : a.1.drop b.1.length ≠ [] := by
        intro hnil
        apply hne
        rw [show b.1 = a.1 from by rw [← happ, hnil, List.append_nil]]
      have hcomp := getPath_append (a.1.drop b.1.length) b.1 (.vDict d0)
      rw [happ, hpa, hpb] at hcomp
      cases hdp : a.1.drop b.1.length with
      | nil => exact hdropne hdp
      | cons c cs =>
        rw [hdp] at hcomp
        simp [getPath] at hcomp
  have hpairms : ((collectEntries fs (some p) d0 []).map
      (fun e => (e.1, e.2.2))).Pairwise
      (fun a b => isPreL a.1 b.1 = false ∧ isPreL b.1 a.1 = false) :=
    List.pairwise_map.mpr hpaircolls
  have hnd1 : keysNodupD (loadEntries fs (some p) d0 []) = true :=
    (keysNodup_load_aux fs (some p) (sizeOf d0)).2 d0 le_rfl hnd []
  have hneq : q ≠ [] := (hentry (q, sq, tq) hq).1
  have hnav : ∀ e ∈ (collectEntries fs (some p) d0 []).map
      (fun e => (e.1, e.2.2)),
      navOkD (loadEntries fs (some p) d0 []) e.1 = true := by
    intro e he
    obtain ⟨e0, he0, hee⟩ := List.mem_map.mp he
    obtain ⟨sl, hsl⟩ := hlive e0 he0
    rw [← hee]
    exact navOk_of_getPath e0.1 _ _ hsl (hentry e0 he0).1
  have hsd : prepareDataForSave (Config.load fs c0 p).1
      = restoreSpecD (some p) ((collectEntries fs (some p) d0 []).map
          (fun e => (e.1, e.2.2))) (loadEntries fs (some p) d0 []) [] := by
    unfold prepareDataForSave
    rw [hc1f, hc1p, hc1d]
    rw [List.foldl_map]
    rw [foldl_congr_mem _ _
      (fun sd e => restoreKeys sd e.1 (buildMarker (some p) e.2.2)) _
      (by
        intro a' e he
        rw [pySplitDot_pyJoinDot e.1 (hentry e he).1 (hdot e he)])]
    rw [show (collectEntries fs (some p) d0 []).foldl
        (fun sd e => restoreKeys sd e.1 (buildMarker (some p) e.2.2))
        (loadEntries fs (some p) d0 [])
      = ((collectEntries fs (some p) d0 []).map (fun e => (e.1, e.2.2))).foldl
        (fun sd e => restoreKeys sd e.1 (buildMarker (some p) e.2))
        (loadEntries fs (some p) d0 []) from by
      rw [List.foldl_map]]
    exact foldl_restoreKeys_spec (some p) _ _ hnd1 hnav hpairms
  have hmark : getPath (.vDict (prepareDataForSave (Config.load fs c0 p).1)) q
      = some (.vStr (buildMarker (some p) tq)) := by
    rw [hsd]
    have hmsnodup : (((collectEntries fs (some p) d0 []).map
        (fun e => (e.1, e.2.2))).map (fun e => e.1)).Nodup := by
      rw [List.map_map]
      have : ((collectEntries fs (some p) d0 []).map
          (fun e => e.1)).Nodup := by
        apply List.Nodup.of_map pyJoinDot
        rw [List.map_map]
        simpa [Function.comp] using hjnd
      simpa [Function.comp] using this
    have hlkq : lookupG ((collectEntries fs (some p) d0 []).map
        (fun e => (e.1, e.2.2))) q = some tq :=
      lookupG_of_mem_nodup (List.mem_map.mpr ⟨(q, sq, tq), hq, rfl⟩) hmsnodup
    apply getPath_restoreSpecD_at (some p) _ q _ [] tq hneq
    · simpa using hlkq
    · intro e he
      obtain ⟨e0, he0, hee⟩ := List.mem_map.mp he
      by_cases h : e0.1 = q
      · left
        rw [← hee]
        simpa using h
      · right
        rw [← hee]
        have hneel : e0 ≠ (q, sq, tq) := fun hh => h (by rw [hh])
        have hsymm : Symmetric (fun a b : List String × String × FsPath =>
            isPreL a.1 b.1 = false ∧ isPreL b.1 a.1 = false) :=
          fun a b hab => ⟨hab.2, hab.1⟩
        simpa using (List.Pairwise.forall hsymm hpaircolls he0 hq hneel).1
    · obtain ⟨sl, hsl⟩ := hlive (q, sq, tq) hq
      dsimp only at hsl
      rw [hsl]
      rfl
  refine ⟨rfl, ?_, hmark, rfl⟩
  exact lookup_write_self _ _ _

def c4fs : FS := ⟨["r"], ["h"],
  [(⟨true, ["a", "cfg.toml"]⟩, .doc [("k", .vStr "file:///b/x.txt")]),
   (⟨true, ["b", "x.txt"]⟩, .text "abc")]⟩

/-- Counterexample scenario for relativizing against the destination: the
document loaded from /a/cfg.toml is saved to /b/cfg2.toml; the target
/b/x.txt lives under the destination's directory /b, yet the emitted
marker is the absolute file:///b/x.txt, not the destination-relative
file://x.txt, because the code relativizes against the old recorded
directory /a. -/
theorem C4_counterexample :
    isPreL (FsPath.parent ⟨true, ["b", "cfg2.toml"]⟩).segs
      (⟨true, ["b", "x.txt"]⟩ : FsPath).segs = true ∧
    getPath (.vDict (prepareDataForSave (Config.load c4fs ⟨none, [], []⟩
        ⟨true, ["a", "cfg.toml"]⟩).1)) ["k"]
      = some (.vStr "file:///b/x.txt") ∧
    ((Config.save c4fs (Config.load c4fs ⟨none, [], []⟩
        ⟨true, ["a", "cfg.toml"]⟩).1
        (some ⟨true, ["b", "cfg2.toml"]⟩)).2.1).lookup
        ⟨true, ["b", "cfg2.toml"]⟩
      = some (.doc (prepareDataForSave (Config.load c4fs ⟨none, [], []⟩
          ⟨true, ["a", "cfg.toml"]⟩).1)) ∧
    ("file:///b/x.txt" : String)
      ≠ markerPre ++ FsPath.render ⟨false, ["x.txt"]⟩ :=
  ⟨rfl, rfl, rfl, by decide⟩

/-- Instantiation of the marker-relativization theorem on the same
store. -/
theorem C4_witness :
    (Config.save c4fs (Config.load c4fs ⟨none, [], []⟩
        ⟨true, ["a", "cfg.toml"]⟩).1
        (some ⟨true, ["b", "cfg2.toml"]⟩)).2.2 = .ok () ∧
    ((Config.save c4fs (Config.load c4fs ⟨none, [], []⟩
        ⟨true, ["a", "cfg.toml"]⟩).1
        (some ⟨true, ["b", "cfg2.toml"]⟩)).2.1).lookup
        ⟨true, ["b", "cfg2.toml"]⟩
      = some (.doc (prepareDataForSave (Config.load c4fs ⟨none, [], []⟩
          ⟨true, ["a", "cfg.toml"]⟩).1)) ∧
    getPath (.vDict (prepareDataForSave (Config.load c4fs ⟨none, [], []⟩
        ⟨true, ["a", "cfg.toml"]⟩).1)) ["k"]
      = some (.vStr (buildMarker (some ⟨true, ["a", "cfg.toml"]⟩)
          ⟨true, ["b", "x.txt"]⟩)) ∧
    buildMarker (some ⟨true, ["a", "cfg.toml"]⟩) ⟨true, ["b", "x.txt"]⟩
      = (if (⟨true, ["b", "x.txt"]⟩ : FsPath).absolute = true then
          match FsPath.relativeTo ⟨true, ["b", "x.txt"]⟩
              (FsPath.parent ⟨true, ["a", "cfg.toml"]⟩) with
          | some rel => markerPre ++ rel.render
          | none => markerPre ++ FsPath.render ⟨true, ["b", "x.txt"]⟩
        else markerPre ++ FsPath.render ⟨true, ["b", "x.txt"]⟩) :=
  C4_marker_relativization c4fs ⟨none, [], []⟩ ⟨true, ["a", "cfg.toml"]⟩
    ⟨true, ["b", "cfg2.toml"]⟩ [("k", .vStr "file:///b/x.txt")]
    ["k"] "file:///b/x.txt" ⟨true, ["b", "x.txt"]⟩
    rfl (by decide) (by decide) (by decide) (by decide)
